import Mathlib

/-!
A verification model of the analysis pipeline in `brain-python/main.py` of the
ghoul-system repository.

The embedding idealises CPython/pandas float64 arithmetic as exact rational
arithmetic (ℚ).  Where IEEE special values drive the control flow of the
source, the corresponding case split is made explicit and justified in the
doc comment of the definition (see `currentRSI`).  Python strings are
modelled as `String` or `List Char`; Python `None` as `Option.none`;
a `requests`/SDK failure of an external adapter as an oracle value `none`.
-/

namespace Ghoul

/-! ### Character and string helpers

Named characters are used instead of literals for the characters that are
syntactically awkward in this development. -/

def lbrace : Char := Char.ofNat 123

def rbrace : Char := Char.ofNat 125

def btick : Char := Char.ofNat 96

def dquote : Char := Char.ofNat 34

/-- `listStartsWith p cs` is true when `p` is a prefix of `cs`. -/
def listStartsWith : List Char → List Char → Bool
  | [], _ => true
  | _ :: _, [] => false
  | p :: ps, c :: cs => p = c && listStartsWith ps cs

/-- `containsSub needle hay`: Python's `needle in hay` substring test. -/
def containsSub (needle : List Char) : List Char → Bool
  | [] => listStartsWith needle []
  | c :: cs => listStartsWith needle (c :: cs) || containsSub needle cs

/-- Python's `str.lower()` restricted to the ASCII case mapping, as a char list. -/
def lowerStr (s : String) : List Char := s.toList.map Char.toLower

/-! ### Keyword Fallback (`emergency_keyword_analysis`, main.py lines 169-184)

The function returns one of three fixed dict literals; each is modelled as a
`KeywordSignal` record whose fields are the dict's keys. -/

structure KeywordSignal where
  action : String
  confidence : ℚ
  sentiment_score : ℤ
  reasoning : String
deriving DecidableEq

def bullish_words : List String :=
  ["surge", "jump", "record", "high", "beat", "buy", "up", "bull", "growth", "strong", "gain"]

def bearish_words : List String :=
  ["crash", "drop", "plunge", "low", "miss", "sell", "down", "bear", "fear", "weak", "loss"]

/-- `sum(1 for word in words if word in headline_lower)`: the number of listed
words occurring (as substrings) in the lowered headline; each word counts at
most once. -/
def keywordScore (words : List String) (headlineLower : List Char) : ℕ :=
  (words.filter (fun w => containsSub w.toList headlineLower)).length

def emergency_keyword_analysis (headline : String) : KeywordSignal :=
  let headline_lower := lowerStr headline
  let bull_score := keywordScore bullish_words headline_lower
  let bear_score := keywordScore bearish_words headline_lower
  if bear_score < bull_score then
    { action := "BUY", confidence := 1/2, sentiment_score := 5,
      reasoning := "EMERGENCY BACKUP: Positive keywords detected." }
  else if bull_score < bear_score then
    { action := "SELL", confidence := 1/2, sentiment_score := -5,
      reasoning := "EMERGENCY BACKUP: Negative keywords detected." }
  else
    { action := "HOLD", confidence := 0, sentiment_score := 0,
      reasoning := "EMERGENCY BACKUP: No clear sentiment found." }

/-! ### Indicator Engine (`calculate_indicators`, main.py lines 90-138)

Pandas `ewm(adjust=False)` is the recursion `y 0 = x 0`,
`y t = (1 - a) * y (t-1) + a * x t`; `min_periods = k` only masks outputs at
positions with fewer than `k` observations as NaN, it does not change the
recursion.  The length guard (`len(df) >= 20`) together with the min_periods
arithmetic determines exactly which last-bar values are non-NaN; the Option
structure below records that analysis:

* `avg_gain`/`avg_loss` at the last bar are non-NaN whenever length ≥ 14;
* the MACD line (`min_periods` 12 and 26) is non-NaN at the last bar iff
  length ≥ 26;
* the signal line (EMA(9) of the MACD line, whose first 25 entries are NaN)
  is non-NaN at the last bar iff length ≥ 34;
* the Bollinger rolling mean/std over a window of 20 are non-NaN at the last
  bar whenever length ≥ 20. -/

def emaStep (a y x : ℚ) : ℚ := (1 - a) * y + a * x

/-- Last value of the `adjust=False` EWM recursion seeded at `y` over `xs`. -/
def emaLastFrom (a y : ℚ) (xs : List ℚ) : ℚ := xs.foldl (emaStep a) y

/-- All values of the `adjust=False` EWM recursion of a series. -/
def emaSeriesFrom (a : ℚ) : ℚ → List ℚ → List ℚ
  | y, [] => [y]
  | y, x :: xs => y :: emaSeriesFrom a (emaStep a y x) xs

def emaSeries (a : ℚ) : List ℚ → List ℚ
  | [] => []
  | x :: xs => emaSeriesFrom a x xs

/-- `df['Close'].diff()` without its leading NaN: `deltas[i] = close[i+1] - close[i]`. -/
def deltas (closes : List ℚ) : List ℚ :=
  List.zipWith (fun a b => a - b) closes.tail closes

/-- `delta.where(delta > 0, 0)`: the leading NaN of `diff()` compares false
against 0 and is replaced by 0, hence the explicit leading `0`. -/
def gains (closes : List ℚ) : List ℚ :=
  0 :: (deltas closes).map (fun d => if 0 < d then d else 0)

/-- `-delta.where(delta < 0, 0)` (loss magnitudes, nonnegative). -/
def losses (closes : List ℚ) : List ℚ :=
  0 :: (deltas closes).map (fun d => if d < 0 then -d else 0)

/-- Wilder smoothing `ewm(alpha=1/14, adjust=False)` of a series, last value. -/
def wilderLast : List ℚ → ℚ
  | [] => 0
  | x :: xs => emaLastFrom (1/14) x xs

def wilderAvgGain (closes : List ℚ) : ℚ := wilderLast (gains closes)

def wilderAvgLoss (closes : List ℚ) : ℚ := wilderLast (losses closes)

/-- Last-bar RSI as computed by
`rs = avg_gain / avg_loss; RSI = 100 - 100 / (1 + rs)` under IEEE float
semantics, made explicit over ℚ:

* `avg_loss = 0`, `avg_gain = 0`: `rs = 0/0 = NaN`, RSI is NaN, and the guard
  `if pd.isna(current_rsi): current_rsi = 50.0` yields 50;
* `avg_loss = 0`, `avg_gain > 0`: `rs = +inf`, `100 - 100/(1 + inf) = 100`
  (not NaN, so the 50.0 default is *not* applied);
* `avg_loss > 0`: finite arithmetic, identical over ℚ. -/
def currentRSI (closes : List ℚ) : ℚ :=
  let ag := wilderAvgGain closes
  let al := wilderAvgLoss closes
  if al = 0 then (if ag = 0 then 50 else 100)
  else 100 - 100 / (1 + ag / al)

/-- MACD line: `ewm(span=12)` minus `ewm(span=26)` (span s gives a = 2/(s+1)). -/
def macdSeries (closes : List ℚ) : List ℚ :=
  List.zipWith (fun a b => a - b) (emaSeries (2/13) closes) (emaSeries (2/27) closes)

/-- `float(macd.iloc[-1])`, `none` when that value is NaN (length < 26,
from `min_periods=26` on the slow EMA). -/
def currentMACD (closes : List ℚ) : Option ℚ :=
  if 26 ≤ closes.length then (macdSeries closes).getLast? else none

/-- `float(signal.iloc[-1])`: EMA(9) of the MACD line.  The MACD input series
is NaN at positions 0..24; pandas' EWM starts its recursion at the first
non-NaN input and `min_periods=9` masks the output until 9 non-NaN inputs
were seen, so the last bar is non-NaN iff length ≥ 34, with value the EWM
recursion over the MACD values from position 25 on. -/
def currentSignal (closes : List ℚ) : Option ℚ :=
  if 34 ≤ closes.length then
    match (macdSeries closes).drop 25 with
    | [] => none
    | x :: xs => some (emaLastFrom (1/5) x xs)
  else none

/-- `macd_trend = "NEUTRAL"; if not (isna(macd) or isna(signal)):
macd_trend = "BULLISH" if macd > signal else "BEARISH"`. -/
def macdTrend (closes : List ℚ) : String :=
  match currentMACD closes, currentSignal closes with
  | some m, some s => if s < m then "BULLISH" else "BEARISH"
  | _, _ => "NEUTRAL"

def lastClose (closes : List ℚ) : ℚ := (closes.getLast?).getD 0

/-- The trailing window `rolling(window=20)` sees at the last bar. -/
def lastWindow (closes : List ℚ) : List ℚ := closes.drop (closes.length - 20)

def sma20 (closes : List ℚ) : ℚ := (lastWindow closes).sum / 20

/-- Sample variance (`ddof=1`, pandas default) of the trailing 20-bar window;
`rolling(20).std()` is its square root. -/
def var20 (closes : List ℚ) : ℚ :=
  ((lastWindow closes).map (fun x => (x - sma20 closes) ^ 2)).sum / 19

/-- `gtTwoSqrt v d` states `2 * Real.sqrt v < d` for `0 ≤ v` without leaving
ℚ (see `gtTwoSqrt_iff_sqrt` below for the justification). -/
def gtTwoSqrt (v d : ℚ) : Prop := 0 < d ∧ 4 * v < d ^ 2

instance decGtTwoSqrt (v d : ℚ) : Decidable (gtTwoSqrt v d) :=
  inferInstanceAs (Decidable (And _ _))

/-- `bb_status = "NEUTRAL"; if close > upper: ...OVEREXTENDED...;
if close < lower: ...OVERSOLD...` where `upper/lower = sma ± 2*std`; the two
`if`s are sequential, the second overrides the first.  With length ≥ 20 the
bands are non-NaN, so the `isna` guards of the source pass.
`close > sma + 2*std` is `gtTwoSqrt var (close - sma)` and
`close < sma - 2*std` is `gtTwoSqrt var (sma - close)`. -/
def bbStatus (closes : List ℚ) : String :=
  let d := lastClose closes - sma20 closes
  let s := if gtTwoSqrt (var20 closes) d then "OVEREXTENDED (UPPER BAND)" else "NEUTRAL"
  if gtTwoSqrt (var20 closes) (-d) then "OVERSOLD (LOWER BAND)" else s

/-- Python's `round(x, 2)`, over ℚ.  (CPython rounds ties to even in binary
float; `round` here rounds ties up.  The two agree except at exact half-cent
ties, which no statement below depends on.) -/
def round2 (q : ℚ) : ℚ := (round (q * 100) : ℤ) / 100

/-- The dict returned by `calculate_indicators`, fields in source order. -/
structure Snapshot where
  rsi : ℚ
  macd_trend : String
  bb_status : String
  price : ℚ
deriving DecidableEq

/-- `calculate_indicators(df)`: `None` for fewer than 20 bars (`df.empty or
len(df) < 20`), otherwise the snapshot of last-bar indicator values.  The
`except` clause of the source cannot fire in the exact model: the only
division whose divisor can be zero is `rs`, which IEEE evaluates to inf/NaN
(handled inside `currentRSI`), not an exception. -/
def calculate_indicators (closes : List ℚ) : Option Snapshot :=
  if closes.length < 20 then none
  else some
    { rsi := round2 (currentRSI closes)
      macd_trend := macdTrend closes
      bb_status := bbStatus closes
      price := round2 (lastClose closes) }

/-! ### Technical Cache (`get_technicals`, main.py lines 140-165)

State is the global dict `TECHNICAL_CACHE`, modelled as a map from symbol to
entry; `time.time()` is the explicit parameter `now`.  The two data-source
adapters (`yf.download` and `fetch_finnhub_data`, including all their failure
modes: exception, missing API key, non-ok payload) are an oracle `FetchEnv`
giving each adapter's normalized Close series or `none`.  `sourceCalls`
counts data-source adapter invocations and `computeCalls` counts
`calculate_indicators` invocations, mirroring the control flow. -/

structure CacheEntry where
  data : Snapshot
  timestamp : ℚ
deriving DecidableEq

def Cache : Type := String → Option CacheEntry

structure FetchEnv where
  yahoo : Option (List ℚ)
  finnhub : Option (List ℚ)

structure TechResult where
  result : Option Snapshot
  cache : Cache
  sourceCalls : ℕ
  computeCalls : ℕ

def CACHE_DURATION : ℚ := 900

/-- `df is None or df.empty` after the Yahoo attempt. -/
def yahooEmpty (env : FetchEnv) : Bool :=
  match env.yahoo with
  | none => true
  | some l => l.isEmpty

/-- The series in `df` after the fallback `if df is None or df.empty:
df = fetch_finnhub_data(symbol)`. -/
def resolveDf (env : FetchEnv) : Option (List ℚ) :=
  if yahooEmpty env then env.finnhub else env.yahoo

/-- Yahoo is always attempted on the fetch path; Finnhub only when Yahoo
yielded nothing. -/
def resolveCalls (env : FetchEnv) : ℕ := if yahooEmpty env then 2 else 1

/-- The miss/expiry path of `get_technicals`: fetch, compute, and store the
result in the cache only on success (`if result:`). -/
def fetchAndStore (cache : Cache) (now : ℚ) (symbol : String) (env : FetchEnv) : TechResult :=
  match resolveDf env with
  | some l =>
    if l.isEmpty then { result := none, cache := cache, sourceCalls := resolveCalls env, computeCalls := 0 }
    else
      match calculate_indicators l with
      | some r =>
        { result := some r
          cache := fun s => if s = symbol then some { data := r, timestamp := now } else cache s
          sourceCalls := resolveCalls env
          computeCalls := 1 }
      | none => { result := none, cache := cache, sourceCalls := resolveCalls env, computeCalls := 1 }
  | none => { result := none, cache := cache, sourceCalls := resolveCalls env, computeCalls := 0 }

/-- `get_technicals(symbol)`: return a live cache entry untouched, otherwise
fetch, compute, and (on success) store. -/
def get_technicals (cache : Cache) (now : ℚ) (symbol : String) (env : FetchEnv) : TechResult :=
  match cache symbol with
  | some entry =>
    if now - entry.timestamp < CACHE_DURATION then
      { result := some entry.data, cache := cache, sourceCalls := 0, computeCalls := 0 }
    else fetchAndStore cache now symbol env
  | none => fetchAndStore cache now symbol env

/-! ### JSON values (`json.loads` / `clean_and_parse_json`, main.py lines 186-192)

JSON values are a mutual inductive (`JVal` with its own list types `JArr`,
`JMems`) so that every function below is structurally recursive and reduces
in the kernel.  The model of `json.loads` covers the fragment produced by
the canonical serializer `serV`: escape-free strings and integer numerals.
(Python additionally accepts escapes, floats, and rejects leading zeros;
none of the statements below depend on inputs in that gap.) -/

mutual
inductive JVal where
  | null : JVal
  | bool (b : Bool) : JVal
  | int (n : ℤ) : JVal
  | str (s : List Char) : JVal
  | arr (xs : JArr) : JVal
  | obj (ms : JMems) : JVal
deriving DecidableEq

inductive JArr where
  | nil : JArr
  | cons (v : JVal) (tl : JArr) : JArr
deriving DecidableEq

inductive JMems where
  | nil : JMems
  | cons (k : List Char) (v : JVal) (tl : JMems) : JMems
deriving DecidableEq
end

def digitChar (d : ℕ) : Char := Char.ofNat (48 + d)

/-- Decimal digits of `n`, most significant first (fuel-structural). -/
def natCharsAux : ℕ → ℕ → List Char
  | 0, _ => []
  | fuel + 1, n => if n < 10 then [digitChar n] else natCharsAux fuel (n / 10) ++ [digitChar (n % 10)]

def natChars (n : ℕ) : List Char := natCharsAux (n + 1) n

def intChars (n : ℤ) : List Char :=
  if n < 0 then '-' :: natChars n.natAbs else natChars n.natAbs

mutual
/-- Canonical compact serialization of a JSON value (the reference text a
well-behaved provider would emit). -/
def serV : JVal → List Char
  | .null => ['n', 'u', 'l', 'l']
  | .bool false => ['f', 'a', 'l', 's', 'e']
  | .bool true => ['t', 'r', 'u', 'e']
  | .int n => intChars n
  | .str s => dquote :: s ++ [dquote]
  | .arr xs => '[' :: serA xs ++ [']']
  | .obj ms => lbrace :: serM ms ++ [rbrace]

def serA : JArr → List Char
  | .nil => []
  | .cons v tl => serV v ++ serASep tl

def serASep : JArr → List Char
  | .nil => []
  | .cons v tl => ',' :: serV v ++ serASep tl

def serM : JMems → List Char
  | .nil => []
  | .cons k v tl => dquote :: k ++ dquote :: ':' :: serV v ++ serMSep tl

def serMSep : JMems → List Char
  | .nil => []
  | .cons k v tl => ',' :: dquote :: k ++ dquote :: ':' :: serV v ++ serMSep tl
end

def isWsChar (c : Char) : Bool := c = ' ' || c = '\n' || c = '\t' || c = '\r'

def isDigitChar (c : Char) : Bool := decide ('0' ≤ c) && decide (c ≤ '9')

def skipWs : List Char → List Char
  | c :: cs => if isWsChar c then skipWs cs else c :: cs
  | [] => []

def takeDigits : List Char → List Char × List Char
  | c :: cs =>
    if isDigitChar c then
      let p := takeDigits cs
      (c :: p.1, p.2)
    else ([], c :: cs)
  | [] => ([], [])

def digitsVal (ds : List Char) : ℕ := ds.foldl (fun a c => 10 * a + (c.toNat - 48)) 0

/-- Body of a JSON string after the opening quote, up to the closing quote
(escape-free fragment). -/
def parseStrBody : List Char → Option (List Char × List Char)
  | [] => none
  | c :: cs =>
    if c = dquote then some ([], cs)
    else
      match parseStrBody cs with
      | some (s, r) => some (c :: s, r)
      | none => none

/-- An integer numeral token: optional minus sign, then a nonempty digit run,
with the JSON number grammar's leading-zero restriction (`0` or `[1-9][0-9]*`;
`json.loads` rejects numerals such as `01`). -/
def parseNumTok (cs : List Char) : Option (JVal × List Char) :=
  match cs with
  | '-' :: r =>
    match takeDigits r with
    | ([], _) => none
    | (d :: ds, r') =>
      if d = '0' ∧ ds ≠ [] then none
      else some (.int (-(digitsVal (d :: ds) : ℤ)), r')
  | _ =>
    match takeDigits cs with
    | ([], _) => none
    | (d :: ds, r') =>
      if d = '0' ∧ ds ≠ [] then none
      else some (.int (digitsVal (d :: ds)), r')

mutual
/-- One JSON value (fuel-structural recursive descent, whitespace-tolerant). -/
def parseVal : ℕ → List Char → Option (JVal × List Char)
  | 0, _ => none
  | fuel + 1, cs =>
    match skipWs cs with
    | [] => none
    | c :: r =>
      if c = 'n' then (if listStartsWith ['u', 'l', 'l'] r then some (.null, r.drop 3) else none)
      else if c = 't' then (if listStartsWith ['r', 'u', 'e'] r then some (.bool true, r.drop 3) else none)
      else if c = 'f' then (if listStartsWith ['a', 'l', 's', 'e'] r then some (.bool false, r.drop 4) else none)
      else if c = dquote then
        match parseStrBody r with
        | some (s, r') => some (.str s, r')
        | none => none
      else if c = '[' then
        match skipWs r with
        | [] => none
        | c2 :: r' =>
          if c2 = ']' then some (.arr .nil, r')
          else
            match parseElems fuel (c2 :: r') with
            | some (xs, r'') => some (.arr xs, r'')
            | none => none
      else if c = lbrace then
        match skipWs r with
        | [] => none
        | c2 :: r' =>
          if c2 = rbrace then some (.obj .nil, r')
          else
            match parseMems fuel (c2 :: r') with
            | some (ms, r'') => some (.obj ms, r'')
            | none => none
      else if c = '-' || isDigitChar c then parseNumTok (c :: r)
      else none

/-- One or more comma-separated array elements up to the closing bracket. -/
def parseElems : ℕ → List Char → Option (JArr × List Char)
  | 0, _ => none
  | fuel + 1, cs =>
    match parseVal fuel cs with
    | none => none
    | some (v, r) =>
      match skipWs r with
      | [] => none
      | c :: r' =>
        if c = ',' then
          match parseElems fuel r' with
          | some (xs, r'') => some (.cons v xs, r'')
          | none => none
        else if c = ']' then some (.cons v .nil, r')
        else none

/-- One or more `"key": value` members up to the closing brace. -/
def parseMems : ℕ → List Char → Option (JMems × List Char)
  | 0, _ => none
  | fuel + 1, cs =>
    match skipWs cs with
    | [] => none
    | c :: r =>
      if c = dquote then
        match parseStrBody r with
        | none => none
        | some (k, r1) =>
          match skipWs r1 with
          | [] => none
          | c2 :: r2 =>
            if c2 = ':' then
              match parseVal fuel r2 with
              | none => none
              | some (v, r3) =>
                match skipWs r3 with
                | [] => none
                | c4 :: r4 =>
                  if c4 = ',' then
                    match parseMems fuel r4 with
                    | some (ms, r5) => some (.cons k v ms, r5)
                    | none => none
                  else if c4 = rbrace then some (.cons k v .nil, r4)
                  else none
            else none
      else none
end

/-- `json.loads` on the modelled fragment: one value, nothing but whitespace
after it (Python raises on trailing data, which `clean_and_parse_json` turns
into `None`). -/
def jsonLoads (cs : List Char) : Option JVal :=
  match parseVal (cs.length + 1) cs with
  | some (v, r) => if skipWs r = [] then some v else none
  | none => none

def fence3 : List Char := [btick, btick, btick]

def fenceJson : List Char := [btick, btick, btick, 'j', 's', 'o', 'n']

/-- `re.sub(r'```json\s*|\s*```', '', content)`: scan left to right; at each
position try the first alternative (` ```json ` plus trailing whitespace),
then the second (a whitespace run directly followed by ` ``` `); on a match
drop it and continue after it, otherwise emit one character.  (The second
alternative's greedy `\s*` can only succeed on the maximal whitespace run,
since shorter runs leave a whitespace character where a backtick is
required.) -/
def stripFencesAux : ℕ → List Char → List Char
  | 0, cs => cs
  | fuel + 1, cs =>
    if listStartsWith fenceJson cs then
      stripFencesAux fuel ((cs.drop 7).dropWhile isWsChar)
    else if listStartsWith fence3 (cs.dropWhile isWsChar) then
      stripFencesAux fuel ((cs.dropWhile isWsChar).drop 3)
    else
      match cs with
      | [] => []
      | c :: cs' => c :: stripFencesAux fuel cs'

def stripFences (cs : List Char) : List Char := stripFencesAux cs.length cs

def firstBraceIdx (cs : List Char) : Option ℕ := cs.findIdx? (fun c => c = lbrace)

def lastBraceIdx (cs : List Char) : Option ℕ :=
  match cs.reverse.findIdx? (fun c => c = rbrace) with
  | some k => some (cs.length - 1 - k)
  | none => none

/-- `re.search(r'\{.*\}', t, re.DOTALL)`: the leftmost match of a greedy
brace span is the slice from the first opening brace to the last closing
brace, provided some closing brace follows the first opening one. -/
def extractBraceSpan (cs : List Char) : Option (List Char) :=
  match firstBraceIdx cs, lastBraceIdx cs with
  | some i, some j => if i < j then some ((cs.drop i).take (j + 1 - i)) else none
  | _, _ => none

/-- `clean_and_parse_json(content)`: strip fence markers, take the greedy
brace span, parse it; `None` when there is no span or parsing fails. -/
def clean_and_parse_json (content : List Char) : Option JVal :=
  match extractBraceSpan (stripFences content) with
  | some s => jsonLoads s
  | none => none

/-! ### Predicates used to state the JSON extraction properties -/

/-- `cs` contains three consecutive backticks (a Markdown fence marker, the
substring the fence-stripping regex can latch onto). -/
def hasTriple : List Char → Bool
  | [] => false
  | c :: cs => listStartsWith fence3 (c :: cs) || hasTriple cs

/-- A string body within the modelled JSON fragment: no quote, no backslash
(escape sequences are outside the model), no control characters. -/
def strOk (s : List Char) : Bool :=
  s.all (fun c => !(c = dquote) && !(c = '\\') && decide (32 ≤ c.toNat))

mutual
/-- The value lies in the JSON fragment the model of `json.loads` covers:
integer numerals and escape-free strings. -/
def wfV : JVal → Bool
  | .null => true
  | .bool _ => true
  | .int _ => true
  | .str s => strOk s
  | .arr xs => wfA xs
  | .obj ms => wfM ms

def wfA : JArr → Bool
  | .nil => true
  | .cons v tl => wfV v && wfA tl

def wfM : JMems → Bool
  | .nil => true
  | .cons k v tl => strOk k && wfV v && wfM tl
end

mutual
/-- No string or key of the value contains a ``` fence marker (the condition
the fence-stripping regex forces on round-tripping values). -/
def fenceFreeV : JVal → Bool
  | .null => true
  | .bool _ => true
  | .int _ => true
  | .str s => !hasTriple s
  | .arr xs => fenceFreeA xs
  | .obj ms => fenceFreeM ms

def fenceFreeA : JArr → Bool
  | .nil => true
  | .cons v tl => fenceFreeV v && fenceFreeA tl

def fenceFreeM : JMems → Bool
  | .nil => true
  | .cons k v tl => !hasTriple k && fenceFreeV v && fenceFreeM tl
end

mutual
/-- Fuel needed by `parseVal` on the serialization of a value. -/
def sizeV : JVal → ℕ
  | .null => 1
  | .bool _ => 1
  | .int _ => 1
  | .str _ => 1
  | .arr xs => 1 + sizeA xs
  | .obj ms => 1 + sizeM ms

def sizeA : JArr → ℕ
  | .nil => 0
  | .cons v tl => 1 + sizeV v + sizeA tl

def sizeM : JMems → ℕ
  | .nil => 0
  | .cons _ v tl => 1 + sizeV v + sizeM tl
end

/-- Some opening brace is followed by a later closing brace (the condition
for the `\{.*\}` search to succeed). -/
def hasBracePair : List Char → Bool
  | [] => false
  | c :: cs => if c = lbrace then cs.contains rbrace else hasBracePair cs

/-- `rest` is empty or does not begin with a digit (so it cannot extend a
serialized integer numeral); every delimiter the serializer emits after a
value qualifies. -/
def noDigitStart : List Char → Bool
  | [] => true
  | c :: _ => !isDigitChar c

/-- A response text: the serialized object wrapped in a Markdown JSON code
fence, the shape providers typically emit. -/
def fenceWrap (cs : List Char) : List Char := fenceJson ++ '\n' :: cs ++ '\n' :: fence3

/-! ### Inference Router and `/analyze` (main.py lines 270-337)

Each provider adapter (`ask_groq`, `ask_huggingface`, `ask_gemini`) either
fails, returning `None`, or returns the response text for this request; the
adapters are therefore modelled as oracle values `Option (List Char)`
(`none` = `None`; note Python's `if not raw_response:` also treats the empty
string as a failure).  The prompt strings built by `analyze` flow only into
these oracles and do not influence the modelled control flow. -/

inductive Provider where
  | groq : Provider
  | hf : Provider
  | gemini : Provider
deriving DecidableEq

def optTruthy : Option (List Char) → Bool
  | none => false
  | some s => !s.isEmpty

/-- The provider cascade of `analyze`: Groq, then Hugging Face if falsy, then
Gemini if still falsy. -/
def inferRaw (g h m : Option (List Char)) : Option (List Char) :=
  let r1 := g
  let r2 := if optTruthy r1 then r1 else h
  if optTruthy r2 then r2 else m

/-- Which providers the cascade invokes: Groq always; each later provider
exactly when every earlier result was falsy. -/
def invokedProviders (g h : Option (List Char)) : List Provider :=
  Provider.groq ::
    (if optTruthy g then []
     else Provider.hf :: (if optTruthy h then [] else [Provider.gemini]))

/-- Python truthiness of a parsed JSON value, as tested by `if result:`:
`null`, `false`, zero, and an empty string, array or object are falsy. -/
def jTruthy : JVal → Bool
  | .null => false
  | .bool b => b
  | .int n => if n = 0 then false else true
  | .str s => if s = [] then false else true
  | .arr .nil => false
  | .arr (.cons _ _) => true
  | .obj .nil => false
  | .obj (.cons _ _ _) => true

/-- `if raw_response: result = clean_and_parse_json(raw_response); if result:
return jsonify(result)` — the parsed model output, if any.  Both guards are
Python truthiness tests: the outer one drops empty text, and the inner one
drops a falsy parse result (in particular the empty object). -/
def modelStage (g h m : Option (List Char)) : Option JVal :=
  match inferRaw g h m with
  | some s =>
    if s.isEmpty then none
    else
      match clean_and_parse_json s with
      | some v => if jTruthy v then some v else none
      | none => none
  | none => none

/-- The dict shape shared by the keyword-backup response (after merging in
`"risk_level": "UNKNOWN"`) and the fixed degraded response. -/
structure FallbackSignal where
  action : String
  confidence : ℚ
  sentiment_score : ℤ
  reasoning : String
  risk_level : String
deriving DecidableEq

/-- `{**backup_result, "risk_level": "UNKNOWN"}`. -/
def withUnknownRisk (k : KeywordSignal) : FallbackSignal :=
  { action := k.action, confidence := k.confidence, sentiment_score := k.sentiment_score,
    reasoning := k.reasoning, risk_level := "UNKNOWN" }

/-- The fixed degraded signal returned when no fallback applies. -/
def degradedSignal : FallbackSignal :=
  { sentiment_score := 0, confidence := 0, action := "IGNORE",
    reasoning := "SYSTEM FAILURE: All AI models offline.", risk_level := "UNKNOWN" }

inductive Response where
  | model (j : JVal) : Response
  | fallback (s : FallbackSignal) : Response
deriving DecidableEq

/-- The keyword-backup stage of `analyze`: keyword analysis merged with
UNKNOWN risk when `mode == 'standard' and headline`, else the degraded
signal. -/
def fallbackStage (mode headline : String) : Response :=
  if mode = "standard" ∧ ¬ headline = "" then
    Response.fallback (withUnknownRisk (emergency_keyword_analysis headline))
  else Response.fallback degradedSignal

/-- The response body of `/analyze` as a function of mode, headline, and the
three provider oracles. -/
def analyze (mode headline : String) (g h m : Option (List Char)) : Response :=
  match modelStage g h m with
  | some j => Response.model j
  | none => fallbackStage mode headline

/-! ### Concrete example data used by witnesses and counterexamples -/

/-- The strictly increasing 20-bar series 1, 2, ..., 20. -/
def cexList : List ℚ :=
  [1, 2, 3, 4, 5, 6, 7, 8, 9, 10, 11, 12, 13, 14, 15, 16, 17, 18, 19, 20]

/-- The snapshot the Indicator Engine computes for 20 constant bars at 100. -/
def snapA : Snapshot :=
  { rsi := 50, macd_trend := "NEUTRAL", bb_status := "NEUTRAL", price := 100 }

/-- A cache holding one entry for SPY fetched at time 0. -/
def cacheA : Cache :=
  fun s => if s = "SPY" then some { data := snapA, timestamp := 0 } else none

def cacheEmpty : Cache := fun _ => none

/-- Both data sources down. -/
def envFail : FetchEnv := { yahoo := none, finnhub := none }

/-- Yahoo serves 20 constant bars at 100. -/
def envConst : FetchEnv := { yahoo := some (List.replicate 20 (100 : ℚ)), finnhub := none }

/-! ## Helper lemmas -/

theorem round2_of_int (n : ℤ) : round2 ((n : ℚ)) = n := by
  have h : ((n : ℚ) * 100) = ((n * 100 : ℤ) : ℚ) := by push_cast; ring
  rw [round2, h, round_intCast]
  push_cast
  rw [mul_div_assoc]
  norm_num

theorem round2_50 : round2 (50 : ℚ) = 50 := by
  have h := round2_of_int 50
  norm_num at h
  exact h

theorem round2_100 : round2 (100 : ℚ) = 100 := by
  have h := round2_of_int 100
  norm_num at h
  exact h

/-- A constant 20-bar series at 100: all deltas are 0, so both Wilder
averages are 0 and RSI takes the NaN-default 50; MACD is masked (length
< 26) and the Bollinger bands collapse onto the price. -/
theorem calc_const100 : calculate_indicators (List.replicate 20 (100 : ℚ)) =
    some { rsi := 50, macd_trend := "NEUTRAL", bb_status := "NEUTRAL", price := 100 } := by
  norm_num [calculate_indicators, currentRSI, wilderAvgGain, wilderAvgLoss, wilderLast,
    gains, losses, deltas, emaLastFrom, emaStep, macdTrend, currentMACD, currentSignal,
    bbStatus, gtTwoSqrt, var20, sma20, lastWindow, lastClose, round2, List.replicate]

theorem optTruthy_of_ne_nil {s : List Char} (hne : s ≠ []) : optTruthy (some s) = true := by
  simp [optTruthy, hne]

/-! ## C7 -/

/-- C7: the Keyword Fallback compares the number of bullish list words
present in the lowercased headline against the number of bearish list words
present, and returns BUY, +5, 0.5 when bullish wins, SELL, -5, 0.5 when
bearish wins, and HOLD, 0, 0.0 on a tie. -/
theorem C7_keyword_classifier (headline : String) :
    (keywordScore bearish_words (lowerStr headline) < keywordScore bullish_words (lowerStr headline) →
      emergency_keyword_analysis headline =
        { action := "BUY", confidence := 1/2, sentiment_score := 5,
          reasoning := "EMERGENCY BACKUP: Positive keywords detected." }) ∧
    (keywordScore bullish_words (lowerStr headline) < keywordScore bearish_words (lowerStr headline) →
      emergency_keyword_analysis headline =
        { action := "SELL", confidence := 1/2, sentiment_score := -5,
          reasoning := "EMERGENCY BACKUP: Negative keywords detected." }) ∧
    (keywordScore bullish_words (lowerStr headline) = keywordScore bearish_words (lowerStr headline) →
      emergency_keyword_analysis headline =
        { action := "HOLD", confidence := 0, sentiment_score := 0,
          reasoning := "EMERGENCY BACKUP: No clear sentiment found." }) := by
  refine ⟨fun h => ?_, fun h => ?_, fun h => ?_⟩
  · simp [emergency_keyword_analysis, h]
  · have h2 : ¬ keywordScore bearish_words (lowerStr headline)
        < keywordScore bullish_words (lowerStr headline) := by omega
    simp [emergency_keyword_analysis, h, h2]
  · have h1 : ¬ keywordScore bearish_words (lowerStr headline)
        < keywordScore bullish_words (lowerStr headline) := by omega
    have h2 : ¬ keywordScore bullish_words (lowerStr headline)
        < keywordScore bearish_words (lowerStr headline) := by omega
    simp [emergency_keyword_analysis, h1, h2]

/-- C7 witness: a headline containing only the bullish word "surge". -/
theorem C7_witness : emergency_keyword_analysis "Markets surge on earnings" =
    { action := "BUY", confidence := 1/2, sentiment_score := 5,
      reasoning := "EMERGENCY BACKUP: Positive keywords detected." } :=
  (C7_keyword_classifier "Markets surge on earnings").1 (by decide)

/-! ## C3 -/

/-- C3: when the model stage of `/analyze` yields no usable output (every
provider failed, returned empty text, or nothing parseable), the response is
the Keyword Fallback augmented with risk_level = UNKNOWN if mode is
"standard" and the headline is non-empty, and the fixed degraded
IGNORE/UNKNOWN signal in every other case. -/
theorem C3_total_failure_fallback (mode headline : String) (g h m : Option (List Char))
    (hfail : modelStage g h m = none) :
    (mode = "standard" ∧ headline ≠ "" →
      analyze mode headline g h m =
        Response.fallback (withUnknownRisk (emergency_keyword_analysis headline))) ∧
    (¬ (mode = "standard" ∧ headline ≠ "") →
      analyze mode headline g h m = Response.fallback degradedSignal) := by
  constructor
  · intro hc
    simp [analyze, hfail, fallbackStage, hc.1, hc.2]
  · intro hc
    rw [analyze, hfail, fallbackStage, if_neg hc]

/-- C3 witness: all three providers fail, mode standard, a headline
containing "surge": the response is the keyword BUY classification with
risk_level UNKNOWN (sentiment_score 5, confidence 0.5). -/
theorem C3_witness : analyze "standard" "Markets surge on earnings" none none none =
    Response.fallback
      { action := "BUY", confidence := 1/2, sentiment_score := 5,
        reasoning := "EMERGENCY BACKUP: Positive keywords detected.",
        risk_level := "UNKNOWN" } := by
  have h1 := (C3_total_failure_fallback "standard" "Markets surge on earnings"
    none none none rfl).1 ⟨rfl, by decide⟩
  have h2 : keywordScore bearish_words (lowerStr "Markets surge on earnings")
      < keywordScore bullish_words (lowerStr "Markets surge on earnings") := by decide
  rw [h1]
  simp [emergency_keyword_analysis, h2, withUnknownRisk]

/-! ## C1 -/

/-- C1 counterexample: the first provider returns non-empty text from which
no JSON object can be extracted, while the second provider would return a
perfectly parseable object; the router does not proceed to the second
provider — the chain stops at the first (only Groq is invoked) and the
request falls through to the degraded fallback, contradicting the claim that
the router behaves as if the provider had failed and tries the next one. -/
theorem C1_counterexample :
    clean_and_parse_json ("I cannot produce structured output today.".toList) = none ∧
    "I cannot produce structured output today.".toList ≠ [] ∧
    clean_and_parse_json (serV (JVal.obj (JMems.cons ['o', 'k'] (JVal.int 1) JMems.nil)))
      = some (JVal.obj (JMems.cons ['o', 'k'] (JVal.int 1) JMems.nil)) ∧
    invokedProviders (some ("I cannot produce structured output today.".toList))
        (some (serV (JVal.obj (JMems.cons ['o', 'k'] (JVal.int 1) JMems.nil))))
      = [Provider.groq] ∧
    analyze "technical_only" "" (some ("I cannot produce structured output today.".toList))
        (some (serV (JVal.obj (JMems.cons ['o', 'k'] (JVal.int 1) JMems.nil)))) none
      = Response.fallback degradedSignal :=
  ⟨by decide, by decide, by decide, by decide, by decide⟩

/-- C1 as amended: a provider that returns non-empty text from which no JSON
object can be extracted stops the chain at that provider — no later provider
is invoked — and the request falls through to the fallback stage (keyword
backup or degraded signal); only a null or empty provider response causes
the router to advance to the next provider. -/
theorem C1_malformed_output_stops_chain (mode headline : String) (s : List Char)
    (hne : s ≠ []) (hbad : clean_and_parse_json s = none) :
    (∀ h m, invokedProviders (some s) h = [Provider.groq] ∧
      analyze mode headline (some s) h m = fallbackStage mode headline) ∧
    (∀ m, invokedProviders none (some s) = [Provider.groq, Provider.hf] ∧
      analyze mode headline none (some s) m = fallbackStage mode headline) ∧
    (invokedProviders none none = [Provider.groq, Provider.hf, Provider.gemini] ∧
      analyze mode headline none none (some s) = fallbackStage mode headline) := by
  have ht := optTruthy_of_ne_nil hne
  have hie : s.isEmpty = false := by simpa using hne
  refine ⟨fun h m => ⟨?_, ?_⟩, fun m => ⟨?_, ?_⟩, ⟨?_, ?_⟩⟩
  · simp [invokedProviders, ht]
  · simp [analyze, modelStage, inferRaw, ht, hie, hbad]
  · simp [invokedProviders, optTruthy, ht, hne]
  · simp [analyze, modelStage, inferRaw, optTruthy, ht, hie, hbad, hne]
  · simp [invokedProviders, optTruthy]
  · simp [analyze, modelStage, inferRaw, optTruthy, ht, hie, hbad, hne]

/-- C1 witness: malformed output at the Gemini position (both earlier
providers returned null) also falls to the degraded signal. -/
theorem C1_witness : analyze "technical_only" "" none none
    (some ("the answer is 42".toList)) = Response.fallback degradedSignal :=
  ((C1_malformed_output_stops_chain "technical_only" "" ("the answer is 42".toList)
    (by decide) (by decide)).2.2).2

/-! ## C5 -/

/-- C5 counterexample: Groq fails and Hugging Face returns the non-empty
two-character output consisting of an opening and a closing brace, which
parses to the empty JSON object; Gemini is never invoked, but the router
does NOT return the parsed result — `if result:` treats the empty dict as
falsy, so the request falls through to the degraded fallback instead. -/
theorem C5_counterexample :
    clean_and_parse_json [lbrace, rbrace] = some (JVal.obj JMems.nil) ∧
    ([lbrace, rbrace] : List Char) ≠ [] ∧
    invokedProviders none (some [lbrace, rbrace]) = [Provider.groq, Provider.hf] ∧
    analyze "technical_only" "" none (some [lbrace, rbrace]) none
      = Response.fallback degradedSignal :=
  ⟨by decide, by decide, by decide, by decide⟩

/-- C5 as amended: when the first provider (Groq) fails (returns null) and
the second (Hugging Face) returns non-empty output, the cascade's raw result
is the second provider's output and the third provider (Gemini) is never
invoked; the object parsed out of that output is returned as the response
exactly when it is truthy (a non-empty dict), while a falsy parse result —
the empty object — falls through to the fallback stage. -/
theorem C5_fallback_order (mode headline : String) (s : List Char) (hne : s ≠ [])
    (m : Option (List Char)) :
    inferRaw none (some s) m = some s ∧
    invokedProviders none (some s) = [Provider.groq, Provider.hf] ∧
    Provider.gemini ∉ invokedProviders none (some s) ∧
    (∀ j, clean_and_parse_json s = some j → jTruthy j = true →
      analyze mode headline none (some s) m = Response.model j) ∧
    (∀ j, clean_and_parse_json s = some j → jTruthy j = false →
      analyze mode headline none (some s) m = fallbackStage mode headline) := by
  have ht := optTruthy_of_ne_nil hne
  have hie : s.isEmpty = false := by simpa using hne
  refine ⟨?_, ?_, ?_, fun j hj htr => ?_, fun j hj htr => ?_⟩
  · simp [inferRaw, optTruthy, ht, hne]
  · simp [invokedProviders, optTruthy, ht, hne]
  · simp [invokedProviders, optTruthy, ht, hne]
  · simp [analyze, modelStage, inferRaw, optTruthy, ht, hie, hj, htr, hne]
  · simp [analyze, modelStage, inferRaw, optTruthy, ht, hie, hj, htr, hne]

/-- C5 witness: Groq fails, Hugging Face returns a (truthy) JSON object,
Gemini (a live oracle that would answer) is never invoked and the parsed
object is returned. -/
theorem C5_witness :
    Provider.gemini ∉ invokedProviders none
      (some (serV (JVal.obj (JMems.cons ['a', 'c', 't', 'i', 'o', 'n']
        (JVal.str ['B', 'U', 'Y']) JMems.nil)))) ∧
    analyze "standard" "Fed cuts rates" none
      (some (serV (JVal.obj (JMems.cons ['a', 'c', 't', 'i', 'o', 'n']
        (JVal.str ['B', 'U', 'Y']) JMems.nil))))
      (some ("UNUSED".toList))
      = Response.model (JVal.obj (JMems.cons ['a', 'c', 't', 'i', 'o', 'n']
        (JVal.str ['B', 'U', 'Y']) JMems.nil)) := by
  have h := C5_fallback_order "standard" "Fed cuts rates"
    (serV (JVal.obj (JMems.cons ['a', 'c', 't', 'i', 'o', 'n']
      (JVal.str ['B', 'U', 'Y']) JMems.nil))) (by decide) (some ("UNUSED".toList))
  exact ⟨h.2.2.1, h.2.2.2.1 _ (by decide) (by decide)⟩

/-! ## C6 -/

/-- C6: for a series of at least 20 bars, the snapshot's macd_trend is
BULLISH when the last MACD-line value exceeds the last signal-line value,
BEARISH when it is below it, and NEUTRAL when either value is undefined
(NaN from insufficient smoothing history). -/
theorem C6_macd_trend (closes : List ℚ) (hlen : 20 ≤ closes.length) :
    (∀ mv sv, currentMACD closes = some mv → currentSignal closes = some sv → sv < mv →
      (calculate_indicators closes).map Snapshot.macd_trend = some "BULLISH") ∧
    (∀ mv sv, currentMACD closes = some mv → currentSignal closes = some sv → mv < sv →
      (calculate_indicators closes).map Snapshot.macd_trend = some "BEARISH") ∧
    ((currentMACD closes = none ∨ currentSignal closes = none) →
      (calculate_indicators closes).map Snapshot.macd_trend = some "NEUTRAL") := by
  have hnl : ¬ closes.length < 20 := by omega
  refine ⟨fun mv sv hm hs hlt => ?_, fun mv sv hm hs hlt => ?_, fun hnone => ?_⟩
  · simp [calculate_indicators, hnl, macdTrend, hm, hs, hlt]
  · have hnlt : ¬ sv < mv := not_lt.mpr (le_of_lt hlt)
    simp [calculate_indicators, hnl, macdTrend, hm, hs, hnlt]
  · rcases hnone with hm | hs
    · simp [calculate_indicators, hnl, macdTrend, hm]
    · rcases hm : currentMACD closes with _ | mv <;>
        simp [calculate_indicators, hnl, macdTrend, hm, hs]

/-- C6 witness: a 20-bar series is long enough for the theorem but too short
for the signal line (needs 34 bars), so the trend is NEUTRAL. -/
theorem C6_witness :
    (calculate_indicators (List.replicate 20 (100 : ℚ))).map Snapshot.macd_trend
      = some "NEUTRAL" :=
  (C6_macd_trend (List.replicate 20 (100 : ℚ)) (by simp)).2.2 (Or.inr (by decide))

/-! ## C2 -/

/-- C2 counterexample: the strictly increasing series 1..20 has
Wilder-smoothed average loss 0 (the claim's hypothesis), yet the engine
returns rsi = 100.0, not the claimed neutral 50.0: over IEEE floats
`avg_gain / 0 = inf` and `100 - 100/(1 + inf) = 100.0`, which is not NaN, so
the 50.0 default never triggers. -/
theorem C2_counterexample :
    20 ≤ cexList.length ∧
    wilderAvgLoss cexList = 0 ∧
    (calculate_indicators cexList).map Snapshot.rsi = some 100 ∧
    some (100 : ℚ) ≠ some (50 : ℚ) := by
  refine ⟨by decide, ?_, ?_, by norm_num⟩
  · norm_num [wilderAvgLoss, losses, deltas, wilderLast, emaLastFrom, emaStep, cexList]
  · norm_num [calculate_indicators, currentRSI, wilderAvgGain, wilderAvgLoss, wilderLast,
      gains, losses, deltas, emaLastFrom, emaStep, round2, cexList]

/-- C2 as amended: for a series of at least 20 bars whose Wilder-smoothed
average loss is zero, the engine returns rsi = 100.0 when the smoothed
average gain is positive (the ratio is +inf, so RSI evaluates to 100), and
the neutral default 50.0 only when the average gain is also zero (the 0/0
NaN case — e.g. a constant series). -/
theorem C2_zero_avg_loss_rsi (closes : List ℚ) (hlen : 20 ≤ closes.length)
    (hal : wilderAvgLoss closes = 0) :
    (calculate_indicators closes).map Snapshot.rsi
      = some (if wilderAvgGain closes = 0 then 50 else 100) := by
  have hnl : ¬ closes.length < 20 := by omega
  by_cases hag : wilderAvgGain closes = 0
  · simp [calculate_indicators, hnl, currentRSI, hal, hag, round2_50]
  · simp [calculate_indicators, hnl, currentRSI, hal, hag, round2_100]

/-- C2 witness: a constant 20-bar series has both smoothed averages zero,
and the amended claim yields the 50.0 branch. -/
theorem C2_witness :
    (calculate_indicators (List.replicate 20 (100 : ℚ))).map Snapshot.rsi = some 50 := by
  have h := C2_zero_avg_loss_rsi (List.replicate 20 (100 : ℚ)) (by simp)
    (by norm_num [wilderAvgLoss, losses, deltas, wilderLast, emaLastFrom, emaStep,
      List.replicate])
  rw [h]
  norm_num [wilderAvgGain, gains, deltas, wilderLast, emaLastFrom, emaStep, List.replicate]

/-! ## C10 -/

/-- C10: when the cache entry for a symbol is expired (at least 900 seconds
old) and the refetch fails (both data sources yield nothing, or the fetched
series does not produce indicators), the lookup returns null and the cache
is left untouched: the stale entry is neither returned, nor evicted, nor
overwritten — it stays under its old timestamp. -/
theorem C10_expired_refetch_failure (cache : Cache) (now : ℚ) (symbol : String)
    (env : FetchEnv) (entry : CacheEntry)
    (hentry : cache symbol = some entry)
    (hexp : CACHE_DURATION ≤ now - entry.timestamp)
    (hfail : resolveDf env = none ∨
      ∃ l, resolveDf env = some l ∧ calculate_indicators l = none) :
    (get_technicals cache now symbol env).result = none ∧
    (get_technicals cache now symbol env).cache = cache ∧
    (get_technicals cache now symbol env).cache symbol = some entry := by
  have hnl : ¬ now - entry.timestamp < CACHE_DURATION := not_lt.mpr hexp
  have hfs : (fetchAndStore cache now symbol env).result = none ∧
      (fetchAndStore cache now symbol env).cache = cache := by
    rcases hfail with hdf | ⟨l, hdf, hcalc⟩
    · simp [fetchAndStore, hdf]
    · by_cases hl : l.isEmpty
      · simp [fetchAndStore, hdf, hl]
      · simp [fetchAndStore, hdf, hl, hcalc]
  have hgt : get_technicals cache now symbol env = fetchAndStore cache now symbol env := by
    simp [get_technicals, hentry, hnl]
  refine ⟨?_, ?_, ?_⟩
  · rw [hgt]; exact hfs.1
  · rw [hgt]; exact hfs.2
  · rw [hgt, hfs.2]; exact hentry

/-- C10 witness: SPY entry fetched at time 0, looked up at time 900 with
both sources down: null result, cache unchanged, stale entry still there. -/
theorem C10_witness :
    (get_technicals cacheA 900 "SPY" envFail).result = none ∧
    (get_technicals cacheA 900 "SPY" envFail).cache = cacheA ∧
    (get_technicals cacheA 900 "SPY" envFail).cache "SPY"
      = some { data := snapA, timestamp := 0 } :=
  C10_expired_refetch_failure cacheA 900 "SPY" envFail { data := snapA, timestamp := 0 }
    (by decide) (by norm_num [CACHE_DURATION]) (Or.inl rfl)

/-! ## C4 -/

/-- C4 counterexample: a call that succeeds *from the cache* at time 600
(the SPY entry was stored at time 0) is followed 400 s later — within 900 s
of the first call — by a call that nevertheless misses (the entry is now
1000 s old), performs two data-source fetch attempts, and returns null
rather than the identical snapshot, contradicting the claim for
cache-hit successes. -/
theorem C4_counterexample :
    (get_technicals cacheA 600 "SPY" envFail).result = some snapA ∧
    (get_technicals cacheA 600 "SPY" envFail).sourceCalls = 0 ∧
    ((1000 : ℚ) - 600 < CACHE_DURATION) ∧
    (get_technicals cacheA 1000 "SPY" envFail).result = none ∧
    (get_technicals cacheA 1000 "SPY" envFail).sourceCalls = 2 ∧
    (none : Option Snapshot) ≠ some snapA := by
  refine ⟨?_, ?_, by norm_num [CACHE_DURATION], ?_, ?_, by simp⟩
  · norm_num [get_technicals, cacheA, CACHE_DURATION]
  · norm_num [get_technicals, cacheA, CACHE_DURATION]
  · norm_num [get_technicals, cacheA, CACHE_DURATION, fetchAndStore, resolveDf,
      yahooEmpty, envFail]
  · norm_num [get_technicals, cacheA, CACHE_DURATION, fetchAndStore, resolveDf,
      resolveCalls, yahooEmpty, envFail]

/-- C4 as amended: if a call *misses* the cache (no entry, or an expired
one) and succeeds — fetching fresh data and storing it at time t — then any
call for the same symbol at a time t' with t' - t < 900 returns the
identical snapshot, leaves the cache untouched, and performs no data-source
fetch and no indicator computation.  (For a call that succeeds from a still
live cached entry the 900 s window runs from that entry's original fetch
time instead, as the counterexample shows.) -/
theorem C4_fresh_fetch_cached (cache : Cache) (t : ℚ) (symbol : String) (env : FetchEnv)
    (snap : Snapshot)
    (hmiss : cache symbol = none ∨
      ∃ e, cache symbol = some e ∧ CACHE_DURATION ≤ t - e.timestamp)
    (hsucc : (get_technicals cache t symbol env).result = some snap) :
    (get_technicals cache t symbol env).cache symbol = some { data := snap, timestamp := t } ∧
    (∀ t', t' - t < CACHE_DURATION → ∀ env',
      get_technicals ((get_technicals cache t symbol env).cache) t' symbol env' =
        { result := some snap, cache := (get_technicals cache t symbol env).cache,
          sourceCalls := 0, computeCalls := 0 }) := by
  have hgt : get_technicals cache t symbol env = fetchAndStore cache t symbol env := by
    rcases hmiss with hm | ⟨e, he, hexp⟩
    · simp [get_technicals, hm]
    · simp [get_technicals, he, not_lt.mpr hexp]
  rw [hgt] at hsucc ⊢
  have hstore : (fetchAndStore cache t symbol env).cache symbol
      = some { data := snap, timestamp := t } := by
    rcases hdf : resolveDf env with _ | l
    · simp [fetchAndStore, hdf] at hsucc
    · by_cases hl : l.isEmpty
      · simp [fetchAndStore, hdf, hl] at hsucc
      · rcases hc : calculate_indicators l with _ | r
        · simp [fetchAndStore, hdf, hl, hc] at hsucc
        · have hr : r = snap := by
            simpa [fetchAndStore, hdf, hl, hc] using hsucc
          subst hr
          simp [fetchAndStore, hdf, hl, hc]
  refine ⟨hstore, fun t' ht' env' => ?_⟩
  simp [get_technicals, hstore, ht']

theorem fetchAndStore_yahoo_success (cache : Cache) (now : ℚ) (symbol : String)
    (l : List ℚ) (r : Snapshot) (hl : l ≠ []) (hc : calculate_indicators l = some r) :
    fetchAndStore cache now symbol { yahoo := some l, finnhub := none } =
      { result := some r
        cache := fun s => if s = symbol then some { data := r, timestamp := now } else cache s
        sourceCalls := 1, computeCalls := 1 } := by
  have hie : l.isEmpty = false := by simpa using hl
  simp [fetchAndStore, resolveDf, resolveCalls, yahooEmpty, hie, hc]

/-- C4 witness: an empty cache, a successful Yahoo fetch of 20 constant bars
stored at time 0, and a second call at time 500 with both sources down: the
cached snapshot is returned with zero fetches and zero computations. -/
theorem C4_witness :
    get_technicals ((get_technicals cacheEmpty 0 "SPY" envConst).cache) 500 "SPY" envFail =
      { result := some snapA, cache := (get_technicals cacheEmpty 0 "SPY" envConst).cache,
        sourceCalls := 0, computeCalls := 0 } := by
  have hgt : get_technicals cacheEmpty 0 "SPY" envConst
      = fetchAndStore cacheEmpty 0 "SPY" envConst := by
    simp [get_technicals, cacheEmpty]
  have hsucc : (get_technicals cacheEmpty 0 "SPY" envConst).result = some snapA := by
    have henv : envConst = FetchEnv.mk (some (List.replicate 20 (100 : ℚ))) none := rfl
    rw [hgt, henv, fetchAndStore_yahoo_success cacheEmpty 0 "SPY"
      (List.replicate 20 (100 : ℚ)) snapA (by simp) calc_const100]
  exact (C4_fresh_fetch_cached cacheEmpty 0 "SPY" envConst snapA (Or.inl rfl) hsucc).2
    500 (by norm_num [CACHE_DURATION]) envFail

/-! ## C8 helper lemmas -/

theorem emaLastFrom_nonneg (a : ℚ) (ha0 : 0 ≤ a) (ha1 : a ≤ 1) :
    ∀ (xs : List ℚ) (y : ℚ), 0 ≤ y → (∀ x ∈ xs, 0 ≤ x) → 0 ≤ emaLastFrom a y xs := by
  intro xs
  induction xs with
  | nil => intro y hy _; exact hy
  | cons x xs ih =>
    intro y hy hxs
    have hx : 0 ≤ x := hxs x (List.mem_cons_self x xs)
    have hstep : 0 ≤ emaStep a y x := by
      have h1 : 0 ≤ (1 - a) * y := mul_nonneg (by linarith) hy
      have h2 : 0 ≤ a * x := mul_nonneg ha0 hx
      unfold emaStep
      linarith
    simpa [emaLastFrom, List.foldl_cons] using
      ih (emaStep a y x) hstep (fun z hz => hxs z (List.mem_cons_of_mem x hz))

theorem wilderLast_nonneg (xs : List ℚ) (hxs : ∀ x ∈ xs, 0 ≤ x) : 0 ≤ wilderLast xs := by
  cases xs with
  | nil => simp [wilderLast]
  | cons x xs =>
    exact emaLastFrom_nonneg (1/14) (by norm_num) (by norm_num) xs x
      (hxs x (List.mem_cons_self x xs)) (fun z hz => hxs z (List.mem_cons_of_mem x hz))

theorem wilderAvgGain_nonneg (closes : List ℚ) : 0 ≤ wilderAvgGain closes := by
  apply wilderLast_nonneg
  intro x hx
  rcases List.mem_cons.mp hx with h | h
  · simp [h]
  · rcases List.mem_map.mp h with ⟨d, _, rfl⟩
    split
    · linarith
    · exact le_refl 0

theorem wilderAvgLoss_nonneg (closes : List ℚ) : 0 ≤ wilderAvgLoss closes := by
  apply wilderLast_nonneg
  intro x hx
  rcases List.mem_cons.mp hx with h | h
  · simp [h]
  · rcases List.mem_map.mp h with ⟨d, _, rfl⟩
    split <;> linarith

theorem currentRSI_bounds (closes : List ℚ) :
    0 ≤ currentRSI closes ∧ currentRSI closes ≤ 100 := by
  unfold currentRSI
  by_cases hal : wilderAvgLoss closes = 0
  · by_cases hag : wilderAvgGain closes = 0 <;> simp [hal, hag] <;> norm_num
  · have hpos : 0 < wilderAvgLoss closes :=
      lt_of_le_of_ne (wilderAvgLoss_nonneg closes) (Ne.symm hal)
    have hrs : 0 ≤ wilderAvgGain closes / wilderAvgLoss closes :=
      div_nonneg (wilderAvgGain_nonneg closes) (le_of_lt hpos)
    have hden : (1 : ℚ) ≤ 1 + wilderAvgGain closes / wilderAvgLoss closes := by linarith
    have hfrac1 : 100 / (1 + wilderAvgGain closes / wilderAvgLoss closes) ≤ 100 / 1 :=
      div_le_div_of_nonneg_left (by norm_num) (by norm_num) hden
    have hfrac0 : 0 < 100 / (1 + wilderAvgGain closes / wilderAvgLoss closes) :=
      div_pos (by norm_num) (by linarith)
    rw [if_neg hal]
    constructor <;> [linarith [hfrac1]; linarith [hfrac0]]

theorem round2_bounds (q : ℚ) (h0 : 0 ≤ q) (h1 : q ≤ 100) :
    0 ≤ round2 q ∧ round2 q ≤ 100 := by
  have hlow : (0 : ℤ) ≤ round (q * 100) := by
    rw [round_eq]
    have : (0 : ℤ) = ⌊(1 : ℚ) / 2⌋ := by norm_num
    rw [this]
    exact Int.floor_mono (by linarith)
  have hhigh : round (q * 100) ≤ 10000 := by
    rw [round_eq]
    have h2 : (⌊(10000 : ℚ) + 1 / 2⌋ : ℤ) = 10000 := by norm_num
    calc ⌊q * 100 + 1 / 2⌋ ≤ ⌊(10000 : ℚ) + 1 / 2⌋ := Int.floor_mono (by linarith)
    _ = 10000 := h2
  unfold round2
  constructor
  · apply div_nonneg _ (by norm_num)
    exact_mod_cast hlow
  · rw [div_le_iff (by norm_num : (0 : ℚ) < 100)]
    calc ((round (q * 100) : ℤ) : ℚ) ≤ ((10000 : ℤ) : ℚ) := by exact_mod_cast hhigh
    _ = 100 * 100 := by norm_num

/-! ## C8 -/

/-- C8: every snapshot produced by the Indicator Engine satisfies the data
model invariant: rsi is a rational in [0,100] — in particular never NaN,
the NaN case having been replaced by the neutral 50.0 — macd_trend is one of
the three trend states, and bb_status one of the three band states (the code
renders the OVEREXTENDED and OVERSOLD states as "OVEREXTENDED (UPPER BAND)"
and "OVERSOLD (LOWER BAND)"). -/
theorem C8_snapshot_invariant (closes : List ℚ) (snap : Snapshot)
    (h : calculate_indicators closes = some snap) :
    (0 ≤ snap.rsi ∧ snap.rsi ≤ 100) ∧
    snap.macd_trend ∈ (["BULLISH", "BEARISH", "NEUTRAL"] : List String) ∧
    snap.bb_status ∈
      (["NEUTRAL", "OVEREXTENDED (UPPER BAND)", "OVERSOLD (LOWER BAND)"] : List String) := by
  by_cases hlen : closes.length < 20
  · simp [calculate_indicators, hlen] at h
  · rw [calculate_indicators, if_neg hlen, Option.some_inj] at h
    subst h
    refine ⟨?_, ?_, ?_⟩
    · exact round2_bounds _ (currentRSI_bounds closes).1 (currentRSI_bounds closes).2
    · show macdTrend closes ∈ _
      rcases hm : currentMACD closes with _ | mv <;>
        rcases hs : currentSignal closes with _ | sv <;>
          simp only [macdTrend, hm, hs] <;>
          first
            | (split <;> simp)
            | simp
    · show bbStatus closes ∈ _
      simp only [bbStatus]
      split_ifs <;> simp

/-- C8 witness: the constant-series snapshot (rsi 50, both statuses
NEUTRAL) satisfies the invariant. -/
theorem C8_witness :
    (0 ≤ snapA.rsi ∧ snapA.rsi ≤ 100) ∧
    snapA.macd_trend ∈ (["BULLISH", "BEARISH", "NEUTRAL"] : List String) ∧
    snapA.bb_status ∈
      (["NEUTRAL", "OVEREXTENDED (UPPER BAND)", "OVERSOLD (LOWER BAND)"] : List String) :=
  C8_snapshot_invariant (List.replicate 20 (100 : ℚ)) snapA calc_const100

theorem digitChar_spec (d : ℕ) (h : d < 10) :
    (digitChar d).toNat - 48 = d ∧ isDigitChar (digitChar d) = true := by
  interval_cases d <;> exact ⟨by decide, by decide⟩

theorem natCharsAux_ne_nil (fuel n : ℕ) (h : n < fuel) : natCharsAux fuel n ≠ [] := by
  cases fuel with
  | zero => omega
  | succ f =>
    rw [natCharsAux]
    split <;> simp

theorem natCharsAux_digits (fuel : ℕ) :
    ∀ n, n < fuel → ∀ c ∈ natCharsAux fuel n, isDigitChar c = true := by
  induction fuel with
  | zero => intro n h; omega
  | succ f ih =>
    intro n h c hc
    rw [natCharsAux] at hc
    by_cases h10 : n < 10
    · rw [if_pos h10] at hc
      simp at hc
      subst hc
      exact (digitChar_spec n h10).2
    · rw [if_neg h10] at hc
      rcases List.mem_append.mp hc with hm | hm
      · exact ih (n / 10) (by omega) c hm
      · simp at hm
        subst hm
        exact (digitChar_spec (n % 10) (by omega)).2

theorem digitsVal_append_last (ds : List Char) (c : Char) :
    digitsVal (ds ++ [c]) = 10 * digitsVal ds + (c.toNat - 48) := by
  simp [digitsVal, List.foldl_append]

theorem digitsVal_natCharsAux (fuel : ℕ) :
    ∀ n, n < fuel → digitsVal (natCharsAux fuel n) = n := by
  induction fuel with
  | zero => intro n h; omega
  | succ f ih =>
    intro n h
    rw [natCharsAux]
    by_cases h10 : n < 10
    · rw [if_pos h10]
      have hd := (digitChar_spec n h10).1
      simp [digitsVal]
      omega
    · rw [if_neg h10, digitsVal_append_last, ih (n / 10) (by omega)]
      have hd := (digitChar_spec (n % 10) (by omega)).1
      omega

theorem natChars_ne_nil (n : ℕ) : natChars n ≠ [] :=
  natCharsAux_ne_nil (n + 1) n (by omega)

theorem natChars_digits (n : ℕ) : ∀ c ∈ natChars n, isDigitChar c = true :=
  natCharsAux_digits (n + 1) n (by omega)

theorem digitsVal_natChars (n : ℕ) : digitsVal (natChars n) = n :=
  digitsVal_natCharsAux (n + 1) n (by omega)

theorem natCharsAux_leading (fuel : ℕ) : ∀ n, n < fuel →
    ∀ d ds, natCharsAux fuel n = d :: ds → d = '0' → ds = [] := by
  induction fuel with
  | zero => intro n h; omega
  | succ f ih =>
    intro n h d ds heq hd0
    rw [natCharsAux] at heq
    by_cases h10 : n < 10
    · rw [if_pos h10] at heq
      exact (List.cons.injEq _ _ _ _ ▸ heq).2.symm
    · exfalso
      rw [if_neg h10] at heq
      have hdiv : n / 10 < n := Nat.div_lt_self (by omega) (by omega)
      have hsub : n / 10 < f := by omega
      obtain ⟨c, t, hct⟩ := List.exists_cons_of_ne_nil (natCharsAux_ne_nil f (n / 10) hsub)
      rw [hct, List.cons_append, List.cons.injEq] at heq
      have ht : t = [] := ih (n / 10) hsub c t hct (heq.1.trans hd0)
      have hv := digitsVal_natCharsAux f (n / 10) hsub
      rw [hct, ht, heq.1.trans hd0] at hv
      have hz : digitsVal ['0'] = 0 := by decide
      omega

theorem natChars_leading (n : ℕ) (d : Char) (ds : List Char)
    (h : natChars n = d :: ds) (h0 : d = '0') : ds = [] :=
  natCharsAux_leading (n + 1) n (by omega) d ds h h0

theorem digit_facts (c : Char) (h : isDigitChar c = true) :
    c ≠ 'n' ∧ c ≠ 't' ∧ c ≠ 'f' ∧ c ≠ dquote ∧ c ≠ '[' ∧ c ≠ lbrace ∧ c ≠ '-' ∧
    isWsChar c = false ∧ c ≠ ']' ∧ c ≠ rbrace ∧ c ≠ btick := by
  refine ⟨?_, ?_, ?_, ?_, ?_, ?_, ?_, ?_, ?_, ?_, ?_⟩ <;>
    try (intro heq; subst heq; exact absurd h (by decide))
  simp only [isWsChar, Bool.or_eq_false_iff, decide_eq_false_iff_not]
  refine ⟨⟨⟨?_, ?_⟩, ?_⟩, ?_⟩ <;> (intro heq; subst heq; exact absurd h (by decide))

theorem takeDigits_stop (cs : List Char) (h : noDigitStart cs = true) :
    takeDigits cs = ([], cs) := by
  cases cs with
  | nil => rfl
  | cons c t =>
    simp only [noDigitStart, Bool.not_eq_true'] at h
    simp [takeDigits, h]

theorem takeDigits_append (ds : List Char) (hds : ∀ c ∈ ds, isDigitChar c = true)
    (rest : List Char) (hrest : noDigitStart rest = true) :
    takeDigits (ds ++ rest) = (ds, rest) := by
  induction ds with
  | nil => simpa using takeDigits_stop rest hrest
  | cons c t ih =>
    have hc : isDigitChar c = true := hds c (List.mem_cons_self c t)
    have ht := ih (fun x hx => hds x (List.mem_cons_of_mem c hx))
    simp [takeDigits, hc, ht]

theorem parseNumTok_ser (n : ℤ) (rest : List Char) (hrest : noDigitStart rest = true) :
    parseNumTok (intChars n ++ rest) = some (.int n, rest) := by
  by_cases hn : n < 0
  · have harg : intChars n ++ rest = '-' :: (natChars n.natAbs ++ rest) := by
      simp [intChars, hn]
    obtain ⟨c, t, hct⟩ := List.exists_cons_of_ne_nil (natChars_ne_nil n.natAbs)
    have htd : takeDigits (natChars n.natAbs ++ rest) = (c :: t, rest) := by
      rw [← hct]
      exact takeDigits_append _ (natChars_digits _) rest hrest
    have hdv : digitsVal (c :: t) = n.natAbs := by
      rw [← hct]; exact digitsVal_natChars _
    have hlz : ¬ (c = '0' ∧ t ≠ []) := by
      rintro ⟨h0, hne⟩
      exact hne (natChars_leading n.natAbs c t hct h0)
    have hcast : (-(n.natAbs : ℤ)) = n := by omega
    rw [harg]
    simp [parseNumTok, htd, hlz, hdv, abs_of_nonpos (le_of_lt hn)]
  · have harg : intChars n ++ rest = natChars n.natAbs ++ rest := by
      simp [intChars, hn]
    obtain ⟨c, t, hct⟩ := List.exists_cons_of_ne_nil (natChars_ne_nil n.natAbs)
    have hcd : isDigitChar c = true :=
      natChars_digits n.natAbs c (by rw [hct]; exact List.mem_cons_self c t)
    have hcm : c ≠ '-' := (digit_facts c hcd).2.2.2.2.2.2.1
    have hds : ∀ x ∈ c :: t, isDigitChar x = true := by
      rw [← hct]; exact natChars_digits _
    have htd : takeDigits (c :: (t ++ rest)) = (c :: t, rest) := by
      have := takeDigits_append (c :: t) hds rest hrest
      simpa using this
    have hdv : digitsVal (c :: t) = n.natAbs := by
      rw [← hct]; exact digitsVal_natChars _
    have hlz : ¬ (c = '0' ∧ t ≠ []) := by
      rintro ⟨h0, hne⟩
      exact hne (natChars_leading n.natAbs c t hct h0)
    have hcast : ((n.natAbs : ℤ)) = n := by omega
    rw [harg, hct, List.cons_append, parseNumTok.eq_def]
    split
    · rename_i r heq
      rw [List.cons.injEq] at heq
      exact absurd heq.1 hcm
    · simp [htd, hlz, hdv, hcast]

theorem parseStrBody_ser (s : List Char) (hs : strOk s = true) :
    ∀ rest, parseStrBody (s ++ dquote :: rest) = some (s, rest) := by
  induction s with
  | nil => intro rest; simp [parseStrBody]
  | cons c t ih =>
    intro rest
    simp only [strOk, List.all_cons, Bool.and_eq_true, Bool.not_eq_true',
      decide_eq_true_eq] at hs
    have hc : ¬ c = dquote := by
      intro h
      rw [h] at hs
      simp at hs
    have ht : strOk t = true := by
      simp only [strOk]
      exact hs.2
    simp [parseStrBody, hc, ih ht rest]

theorem skipWs_cons_not (c : Char) (r : List Char) (h : isWsChar c = false) :
    skipWs (c :: r) = c :: r := by
  simp [skipWs, h]

theorem serV_head (v : JVal) :
    ∃ c t, serV v = c :: t ∧ isWsChar c = false ∧ c ≠ ']' := by
  cases v with
  | null => exact ⟨'n', _, rfl, by decide, by decide⟩
  | bool b => cases b with
    | true => exact ⟨'t', _, rfl, by decide, by decide⟩
    | false => exact ⟨'f', _, rfl, by decide, by decide⟩
  | int n =>
    by_cases hn : n < 0
    · refine ⟨'-', natChars n.natAbs, ?_, by decide, by decide⟩
      simp [serV, intChars, hn]
    · obtain ⟨c, t, hct⟩ := List.exists_cons_of_ne_nil (natChars_ne_nil n.natAbs)
      have hcd : isDigitChar c = true :=
        natChars_digits n.natAbs c (by rw [hct]; exact List.mem_cons_self c t)
      refine ⟨c, t, ?_, (digit_facts c hcd).2.2.2.2.2.2.2.1,
        (digit_facts c hcd).2.2.2.2.2.2.2.2.1⟩
      simp [serV, intChars, hn, hct]
  | str s => exact ⟨dquote, _, rfl, by decide, by decide⟩
  | arr xs => exact ⟨'[', _, rfl, by decide, by decide⟩
  | obj ms => exact ⟨lbrace, _, rfl, by decide, by decide⟩




theorem sizeV_pos (v : JVal) : 1 ≤ sizeV v := by
  cases v <;> simp [sizeV]

theorem noDigitStart_serASep (xs : JArr) (rest : List Char) :
    noDigitStart (serASep xs ++ ']' :: rest) = true := by
  cases xs with
  | nil => simp only [serASep, List.nil_append, noDigitStart]; decide
  | cons v tl => simp only [serASep, List.cons_append, noDigitStart]; decide

theorem noDigitStart_serMSep (ms : JMems) (rest : List Char) :
    noDigitStart (serMSep ms ++ rbrace :: rest) = true := by
  cases ms with
  | nil => simp only [serMSep, List.nil_append, noDigitStart]; decide
  | cons k v tl => simp only [serMSep, List.cons_append, noDigitStart]; decide

theorem skipWs_serV (v : JVal) (x : List Char) : skipWs (serV v ++ x) = serV v ++ x := by
  obtain ⟨c, t, hct, hws, _⟩ := serV_head v
  rw [hct, List.cons_append, skipWs_cons_not _ _ hws]

theorem parseVal_int (n : ℤ) (fuel : ℕ) (rest : List Char) (hrest : noDigitStart rest = true) :
    parseVal (fuel + 1) (intChars n ++ rest) = some (.int n, rest) := by
  by_cases hn : n < 0
  · have h1 : intChars n ++ rest = '-' :: (natChars n.natAbs ++ rest) := by
      simp [intChars, hn]
    rw [h1, parseVal, skipWs_cons_not _ _ (by decide)]
    simp only [if_neg (by decide : ¬ '-' = 'n'), if_neg (by decide : ¬ '-' = 't'),
      if_neg (by decide : ¬ '-' = 'f'), if_neg (by decide : ¬ '-' = dquote),
      if_neg (by decide : ¬ '-' = '['), if_neg (by decide : ¬ '-' = lbrace),
      if_pos (by decide : ('-' = '-' || isDigitChar '-') = true)]
    rw [← h1, parseNumTok_ser n rest hrest]
    simp
  · obtain ⟨c, t, hct⟩ := List.exists_cons_of_ne_nil (natChars_ne_nil n.natAbs)
    have hcd : isDigitChar c = true :=
      natChars_digits n.natAbs c (by rw [hct]; exact List.mem_cons_self c t)
    obtain ⟨hcn, hc_t, hcf, hcq, hcbk, hcbc, hcm, hws, _, _, _⟩ := digit_facts c hcd
    have h1 : intChars n ++ rest = c :: (t ++ rest) := by
      simp [intChars, hn, hct]
    rw [h1, parseVal, skipWs_cons_not _ _ hws]
    simp only [if_neg hcn, if_neg hc_t, if_neg hcf, if_neg hcq, if_neg hcbk, if_neg hcbc,
      if_pos (by simp [hcd] : (c = '-' || isDigitChar c) = true)]
    rw [← h1, parseNumTok_ser n rest hrest]

theorem parseVal_str (s : List Char) (fuel : ℕ) (rest : List Char) (hs : strOk s = true) :
    parseVal (fuel + 1) (serV (.str s) ++ rest) = some (.str s, rest) := by
  have h1 : serV (.str s) ++ rest = dquote :: (s ++ dquote :: rest) := by
    simp [serV]
  rw [h1, parseVal, skipWs_cons_not _ _ (by decide)]
  simp only [if_neg (by decide : ¬ dquote = 'n'), if_neg (by decide : ¬ dquote = 't'),
    if_neg (by decide : ¬ dquote = 'f'), if_pos rfl]
  rw [parseStrBody_ser s hs rest]
  simp

mutual
theorem rtV : ∀ (v : JVal) (fuel : ℕ) (rest : List Char), wfV v = true →
    sizeV v ≤ fuel → noDigitStart rest = true →
    parseVal fuel (serV v ++ rest) = some (v, rest)
  | v, 0, _, _, hfuel, _ => absurd hfuel (by have := sizeV_pos v; omega)
  | .null, fuel + 1, rest, _, _, _ => by
      simp [serV, parseVal, skipWs, isWsChar, listStartsWith]
  | .bool true, fuel + 1, rest, _, _, _ => by
      simp [serV, parseVal, skipWs, isWsChar, listStartsWith]
  | .bool false, fuel + 1, rest, _, _, _ => by
      simp [serV, parseVal, skipWs, isWsChar, listStartsWith]
  | .int n, fuel + 1, rest, _, _, hrest => by
      have h1 : serV (.int n) = intChars n := by simp [serV]
      rw [h1, parseVal_int n fuel rest hrest]
  | .str s, fuel + 1, rest, hwf, _, _ => by
      exact parseVal_str s fuel rest (by simpa [wfV] using hwf)
  | .arr .nil, fuel + 1, rest, _, _, _ => by
      have h1 : serV (.arr .nil) ++ rest = '[' :: (']' :: rest) := by
        simp [serV, serA]
      rw [h1, parseVal, skipWs_cons_not _ _ (by decide)]
      simp only [if_neg (by decide : ¬ '[' = 'n'), if_neg (by decide : ¬ '[' = 't'),
        if_neg (by decide : ¬ '[' = 'f'), if_neg (by decide : ¬ '[' = dquote),
        if_pos rfl]
      rw [skipWs_cons_not _ _ (by decide)]
      simp
  | .arr (.cons x xs), fuel + 1, rest, hwf, hfuel, _ => by
      have hwx : wfV x = true ∧ wfA xs = true := by simpa [wfV, wfA] using hwf
      have hfa : sizeA (.cons x xs) ≤ fuel := by
        simp only [sizeV, sizeA] at hfuel ⊢; omega
      have key := rtA x xs fuel rest hwx hfa
      have h1 : serV (.arr (.cons x xs)) ++ rest
          = '[' :: (serV x ++ (serASep xs ++ ']' :: rest)) := by
        simp [serV, serA]
      rw [h1, parseVal, skipWs_cons_not _ _ (by decide)]
      simp only [if_neg (by decide : ¬ '[' = 'n'), if_neg (by decide : ¬ '[' = 't'),
        if_neg (by decide : ¬ '[' = 'f'), if_neg (by decide : ¬ '[' = dquote),
        if_pos rfl]
      rw [skipWs_serV]
      obtain ⟨c0, t0, hct, hws0, hbr0⟩ := serV_head x
      rw [hct, List.cons_append]
      simp only [if_neg hbr0, ← List.cons_append, ← hct, key, ↓reduceIte]
  | .obj .nil, fuel + 1, rest, _, _, _ => by
      have h1 : serV (.obj .nil) ++ rest = lbrace :: (rbrace :: rest) := by
        simp [serV, serM]
      rw [h1, parseVal, skipWs_cons_not _ _ (by decide)]
      simp only [if_neg (by decide : ¬ lbrace = 'n'), if_neg (by decide : ¬ lbrace = 't'),
        if_neg (by decide : ¬ lbrace = 'f'), if_neg (by decide : ¬ lbrace = dquote),
        if_neg (by decide : ¬ lbrace = '['), if_pos rfl]
      rw [skipWs_cons_not _ _ (by decide)]
      simp
  | .obj (.cons k v ms), fuel + 1, rest, hwf, hfuel, _ => by
      have hwk : strOk k = true ∧ wfV v = true ∧ wfM ms = true := by
        simpa [wfV, wfM, and_assoc] using hwf
      have hfm : sizeM (.cons k v ms) ≤ fuel := by
        simp only [sizeV, sizeM] at hfuel ⊢; omega
      have key := rtM k v ms fuel rest hwk.1 hwk.2.1 hwk.2.2 hfm
      have h1 : serV (.obj (.cons k v ms)) ++ rest
          = lbrace :: (dquote :: (k ++ (dquote :: ':' ::
              (serV v ++ (serMSep ms ++ rbrace :: rest))))) := by
        simp [serV, serM]
      rw [h1, parseVal, skipWs_cons_not _ _ (by decide)]
      simp only [if_neg (by decide : ¬ lbrace = 'n'), if_neg (by decide : ¬ lbrace = 't'),
        if_neg (by decide : ¬ lbrace = 'f'), if_neg (by decide : ¬ lbrace = dquote),
        if_neg (by decide : ¬ lbrace = '['), if_pos rfl]
      rw [skipWs_cons_not _ _ (by decide)]
      simp only [if_neg (by decide : ¬ dquote = rbrace), key, ↓reduceIte]
  termination_by v _ _ _ _ _ => sizeOf v

theorem rtA : ∀ (x : JVal) (xs : JArr) (fuel : ℕ) (rest : List Char),
    wfV x = true ∧ wfA xs = true → sizeA (.cons x xs) ≤ fuel →
    parseElems fuel (serV x ++ (serASep xs ++ ']' :: rest)) = some (.cons x xs, rest)
  | x, _, 0, _, _, hfuel =>
      absurd hfuel (by simp only [sizeA]; have := sizeV_pos x; omega)
  | x, xs, fuel + 1, rest, ⟨hwx, hwxs⟩, hfuel => by
      have hfx : sizeV x ≤ fuel := by simp only [sizeA] at hfuel; omega
      have hv1 := rtV x fuel (serASep xs ++ ']' :: rest) hwx hfx (noDigitStart_serASep xs rest)
      rw [parseElems, hv1]
      cases xs with
      | nil =>
        simp only [serASep, List.nil_append]
        rw [skipWs_cons_not _ _ (by decide)]
        simp only [if_neg (by decide : ¬ ']' = ','), ↓reduceIte]
      | cons y tl =>
        have hwy : wfV y = true ∧ wfA tl = true := by simpa [wfA] using hwxs
        have hfy : sizeA (.cons y tl) ≤ fuel := by
          simp only [sizeA] at hfuel ⊢; omega
        have key := rtA y tl fuel rest hwy hfy
        simp only [serASep, List.cons_append, List.append_assoc]
        rw [skipWs_cons_not _ _ (by decide)]
        simp only [↓reduceIte, List.cons_append, List.append_assoc] at key ⊢
        simp only [key]
  termination_by x xs _ _ _ _ => 1 + sizeOf x + sizeOf xs

theorem rtM : ∀ (k : List Char) (v : JVal) (ms : JMems) (fuel : ℕ) (rest : List Char),
    strOk k = true → wfV v = true → wfM ms = true → sizeM (.cons k v ms) ≤ fuel →
    parseMems fuel
        (dquote :: (k ++ (dquote :: ':' :: (serV v ++ (serMSep ms ++ rbrace :: rest)))))
      = some (.cons k v ms, rest)
  | _, v, _, 0, _, _, _, _, hfuel =>
      absurd hfuel (by simp only [sizeM]; have := sizeV_pos v; omega)
  | k, v, ms, fuel + 1, rest, hk, hv, hms, hfuel => by
      have hfv : sizeV v ≤ fuel := by simp only [sizeM] at hfuel; omega
      have hsb := parseStrBody_ser k hk (':' :: (serV v ++ (serMSep ms ++ rbrace :: rest)))
      have hv1 := rtV v fuel (serMSep ms ++ rbrace :: rest) hv hfv (noDigitStart_serMSep ms rest)
      rw [parseMems, skipWs_cons_not _ _ (by decide)]
      simp only [↓reduceIte, hsb]
      rw [skipWs_cons_not _ _ (by decide)]
      simp only [↓reduceIte, hv1]
      cases ms with
      | nil =>
        simp only [serMSep, List.nil_append]
        rw [skipWs_cons_not _ _ (by decide)]
        simp only [if_neg (by decide : ¬ rbrace = ','), ↓reduceIte]
      | cons k2 v2 tl =>
        have hm2 : strOk k2 = true ∧ wfV v2 = true ∧ wfM tl = true := by
          simpa [wfM, and_assoc] using hms
        have hf2 : sizeM (.cons k2 v2 tl) ≤ fuel := by
          simp only [sizeM] at hfuel ⊢; omega
        have key := rtM k2 v2 tl fuel rest hm2.1 hm2.2.1 hm2.2.2 hf2
        simp only [serMSep, List.cons_append, List.append_assoc]
        rw [skipWs_cons_not _ _ (by decide)]
        simp only [↓reduceIte, List.cons_append, List.append_assoc] at key ⊢
        simp only [key]
  termination_by _ v ms _ _ _ _ _ _ => 1 + sizeOf v + sizeOf ms
end

mutual
theorem sizeLenV : ∀ v : JVal, sizeV v ≤ (serV v).length
  | .null => by simp [sizeV, serV]
  | .bool true => by simp [sizeV, serV]
  | .bool false => by simp [sizeV, serV]
  | .int n => by
      have h := natChars_ne_nil n.natAbs
      have : 1 ≤ (natChars n.natAbs).length := by
        cases hx : natChars n.natAbs with
        | nil => exact absurd hx h
        | cons a t => simp
      by_cases hn : n < 0 <;> simp [sizeV, serV, intChars, hn] <;> omega
  | .str s => by simp [sizeV, serV]
  | .arr xs => by
      have h := sizeLenA xs
      cases xs with
      | nil => simp [sizeV, sizeA, serV, serA]
      | cons y tl =>
        have hy := sizeLenV y
        have htl := sizeLenASep tl
        simp only [sizeV, sizeA, serV, serA, List.length_cons, List.length_append] at *
        omega
  | .obj ms => by
      cases ms with
      | nil => simp [sizeV, sizeM, serV, serM]
      | cons k v tl =>
        have hv := sizeLenV v
        have htl := sizeLenMSep tl
        simp only [sizeV, sizeM, serV, serM, List.length_cons, List.length_append] at *
        omega
  termination_by v => sizeOf v

theorem sizeLenA : ∀ xs : JArr, sizeA xs ≤ (serA xs).length + 1
  | .nil => by simp [sizeA, serA]
  | .cons y tl => by
      have hy := sizeLenV y
      have htl := sizeLenASep tl
      simp only [sizeA, serA, List.length_append] at *
      omega
  termination_by xs => sizeOf xs

theorem sizeLenASep : ∀ xs : JArr, sizeA xs ≤ (serASep xs).length
  | .nil => by simp [sizeA, serASep]
  | .cons y tl => by
      have hy := sizeLenV y
      have htl := sizeLenASep tl
      simp only [sizeA, serASep, List.length_cons, List.length_append] at *
      omega
  termination_by xs => sizeOf xs

theorem sizeLenMSep : ∀ ms : JMems, sizeM ms ≤ (serMSep ms).length
  | .nil => by simp [sizeM, serMSep]
  | .cons k v tl => by
      have hv := sizeLenV v
      have htl := sizeLenMSep tl
      simp only [sizeM, serMSep, List.length_cons, List.length_append] at *
      omega
  termination_by ms => sizeOf ms
end

/-- `json.loads` inverts the canonical serializer on well-formed objects. -/
theorem jsonLoads_ser (ms : JMems) (h : wfM ms = true) :
    jsonLoads (serV (.obj ms)) = some (.obj ms) := by
  have hwf : wfV (.obj ms) = true := by simpa [wfV] using h
  have hsz : sizeV (.obj ms) ≤ (serV (.obj ms)).length + 1 := by
    have := sizeLenV (.obj ms)
    omega
  have h1 := rtV (.obj ms) ((serV (.obj ms)).length + 1) [] hwf hsz (by decide)
  rw [List.append_nil] at h1
  rw [jsonLoads, h1]
  simp [skipWs]

/-- The greedy brace-span search on a text that starts with an opening brace
and ends with a closing brace returns the whole text. -/
theorem extract_wrap (u : List Char) :
    extractBraceSpan (lbrace :: (u ++ [rbrace])) = some (lbrace :: (u ++ [rbrace])) := by
  have hfi : firstBraceIdx (lbrace :: (u ++ [rbrace])) = some 0 := by
    simp [firstBraceIdx, List.findIdx?_cons]
  have hrev : (lbrace :: (u ++ [rbrace])).reverse = rbrace :: (u.reverse ++ [lbrace]) := by
    simp [List.reverse_cons, List.reverse_append]
  have hla : lastBraceIdx (lbrace :: (u ++ [rbrace])) = some (u.length + 1) := by
    rw [lastBraceIdx, hrev]
    simp [List.findIdx?_cons]
  rw [extractBraceSpan, hfi, hla]
  simp only [↓reduceIte, Nat.zero_lt_succ, List.drop_zero]
  have : u.length + 1 + 1 - 0 = (lbrace :: (u ++ [rbrace])).length := by simp
  rw [this, List.take_length]

theorem listStartsWith_append_self : ∀ (p r : List Char), listStartsWith p (p ++ r) = true
  | [], _ => rfl
  | c :: ps, r => by
      simp [listStartsWith, listStartsWith_append_self ps r]

theorem listStartsWith_of_append (p q cs : List Char)
    (h : listStartsWith (p ++ q) cs = true) : listStartsWith p cs = true := by
  induction p generalizing cs with
  | nil => rfl
  | cons c ps ih =>
    cases cs with
    | nil => exact absurd h (by simp [listStartsWith])
    | cons d ds =>
      simp only [List.cons_append, listStartsWith, Bool.and_eq_true] at h ⊢
      exact ⟨h.1, ih ds h.2⟩

theorem hasTriple_cons_or (c : Char) (cs : List Char) :
    hasTriple (c :: cs) = (listStartsWith fence3 (c :: cs) || hasTriple cs) := rfl

theorem hasTriple_tail {c : Char} {cs : List Char} (h : hasTriple (c :: cs) = false) :
    hasTriple cs = false := by
  rw [hasTriple_cons_or, Bool.or_eq_false_iff] at h
  exact h.2

theorem hasTriple_dropWhile (p : Char → Bool) (cs : List Char)
    (h : hasTriple cs = false) : hasTriple (cs.dropWhile p) = false := by
  induction cs with
  | nil => simpa using h
  | cons c cs ih =>
    rw [List.dropWhile_cons]
    split
    · exact ih (hasTriple_tail h)
    · exact h

theorem hasTriple_cons_false {c : Char} (hc : c ≠ btick) {cs : List Char}
    (hcs : hasTriple cs = false) : hasTriple (c :: cs) = false := by
  have h0 : (btick = c) = False := by
    simp only [eq_iff_iff, iff_false]
    exact fun h => hc h.symm
  rw [hasTriple_cons_or, Bool.or_eq_false_iff]
  exact ⟨by simp [fence3, listStartsWith, h0], hcs⟩

/-- No window of `s ++ b` can read ` ``` ` when `s` is fence-free and `b`
does not begin with a backtick: a window of three backticks would either lie
inside `s` or have to cross into `b`'s first character. -/
theorem startsWith_fence3_append_false (s b : List Char) (hs : hasTriple s = false)
    (hbh : ∀ c t, b = c :: t → c ≠ btick) :
    listStartsWith fence3 (s ++ b) = false := by
  have hbline : ∀ q : List Char, listStartsWith (btick :: q) b = false := by
    intro q
    cases b with
    | nil => simp [listStartsWith]
    | cons c t =>
      have h0 : (btick = c) = False := by
        simp only [eq_iff_iff, iff_false]
        exact fun h => (hbh c t rfl) h.symm
      simp [listStartsWith, h0]
  match s with
  | [] =>
    simpa [fence3] using hbline [btick, btick]
  | [c] =>
    have := hbline [btick]
    simp only [fence3, List.cons_append, List.nil_append, listStartsWith,
      Bool.and_eq_false_iff]
    right
    simpa [fence3, listStartsWith] using hbline [btick]
  | [c, d] =>
    simp only [fence3, List.cons_append, List.nil_append, listStartsWith,
      Bool.and_eq_false_iff]
    right
    right
    simpa [listStartsWith] using hbline []
  | c :: d :: e :: s' =>
    have heq : listStartsWith fence3 ((c :: d :: e :: s') ++ b)
        = listStartsWith fence3 (c :: d :: e :: s') := by
      simp [fence3, listStartsWith]
    rw [heq]
    rcases hT : listStartsWith fence3 (c :: d :: e :: s') with _ | _
    · rfl
    · exfalso
      have hx : hasTriple (c :: d :: e :: s') = true := by
        rw [hasTriple_cons_or, hT, Bool.true_or]
      rw [hs] at hx
      exact Bool.false_ne_true hx

theorem hasTriple_append_false {a b : List Char} (ha : hasTriple a = false)
    (hb : hasTriple b = false) (hbh : ∀ c t, b = c :: t → c ≠ btick) :
    hasTriple (a ++ b) = false := by
  induction a with
  | nil => simpa using hb
  | cons c a' ih =>
    rw [List.cons_append, hasTriple_cons_or, Bool.or_eq_false_iff]
    refine ⟨?_, ih (hasTriple_tail ha)⟩
    have := startsWith_fence3_append_false (c :: a') b ha hbh
    simpa using this

theorem noTick_hasTriple_false (cs : List Char) (h : ∀ c ∈ cs, c ≠ btick) :
    hasTriple cs = false := by
  induction cs with
  | nil => rfl
  | cons c cs ih =>
    exact hasTriple_cons_false (h c (List.mem_cons_self c cs))
      (ih (fun x hx => h x (List.mem_cons_of_mem c hx)))

theorem intChars_no_btick (n : ℤ) : ∀ c ∈ intChars n, c ≠ btick := by
  intro c hc
  by_cases hn : n < 0
  · simp only [intChars, if_pos hn] at hc
    rcases List.mem_cons.mp hc with h | h
    · subst h; decide
    · exact (digit_facts c (natChars_digits n.natAbs c h)).2.2.2.2.2.2.2.2.2.2
  · simp only [intChars, if_neg hn] at hc
    exact (digit_facts c (natChars_digits n.natAbs c hc)).2.2.2.2.2.2.2.2.2.2

mutual
theorem ntV : ∀ v : JVal, fenceFreeV v = true → hasTriple (serV v) = false
  | .null, _ => by decide
  | .bool true, _ => by decide
  | .bool false, _ => by decide
  | .int n, _ => noTick_hasTriple_false _ (intChars_no_btick n)
  | .str s, h => by
      have hs : hasTriple s = false := by simpa [fenceFreeV] using h
      have hbody : hasTriple (s ++ [dquote]) = false :=
        hasTriple_append_false hs (by decide)
          (fun c t ht => by simp at ht; rw [← ht.1]; decide)
      exact hasTriple_cons_false (by decide) hbody
  | .arr xs, h => by
      have hxs : fenceFreeA xs = true := by simpa [fenceFreeV] using h
      have hbody : hasTriple (serA xs ++ [']']) = false :=
        hasTriple_append_false (ntA xs hxs) (by decide)
          (fun c t ht => by simp at ht; rw [← ht.1]; decide)
      exact hasTriple_cons_false (by decide) hbody
  | .obj ms, h => by
      have hms : fenceFreeM ms = true := by simpa [fenceFreeV] using h
      have hbody : hasTriple (serM ms ++ [rbrace]) = false :=
        hasTriple_append_false (ntM ms hms) (by decide)
          (fun c t ht => by simp at ht; rw [← ht.1]; decide)
      exact hasTriple_cons_false (by decide) hbody
  termination_by v _ => 2 * sizeOf v

theorem ntA : ∀ xs : JArr, fenceFreeA xs = true → hasTriple (serA xs) = false
  | .nil, _ => rfl
  | .cons v tl, h => by
      have hv : fenceFreeV v = true ∧ fenceFreeA tl = true := by
        simpa [fenceFreeA] using h
      cases tl with
      | nil =>
        rw [serA]
        simpa [serASep] using ntV v hv.1
      | cons y tl' =>
        rw [serA]
        exact hasTriple_append_false (ntV v hv.1) (ntASep _ hv.2)
          (fun c t ht => by rw [serASep] at ht; simp at ht; rw [← ht.1]; decide)
  termination_by xs _ => 2 * sizeOf xs

theorem ntASep : ∀ xs : JArr, fenceFreeA xs = true → hasTriple (serASep xs) = false
  | .nil, _ => rfl
  | .cons v tl, h => by
      have hv : fenceFreeV v = true ∧ fenceFreeA tl = true := by
        simpa [fenceFreeA] using h
      rw [serASep]
      refine hasTriple_cons_false (by decide) ?_
      cases tl with
      | nil => simpa [serASep] using ntV v hv.1
      | cons y tl' =>
        exact hasTriple_append_false (ntV v hv.1) (ntASep _ hv.2)
          (fun c t ht => by rw [serASep] at ht; simp at ht; rw [← ht.1]; decide)
  termination_by xs _ => 2 * sizeOf xs + 1

theorem ntInnerM : ∀ (k : List Char) (v : JVal), hasTriple k = false → fenceFreeV v = true →
    hasTriple ((dquote :: k) ++ (dquote :: ':' :: serV v)) = false
  | k, v, hk, hv => by
      refine hasTriple_cons_false (by decide) ?_
      refine hasTriple_append_false hk ?_ (fun c t ht => by simp at ht; rw [← ht.1]; decide)
      exact hasTriple_cons_false (by decide) (hasTriple_cons_false (by decide) (ntV v hv))
  termination_by _ v _ _ => 2 * sizeOf v + 1

theorem ntM : ∀ ms : JMems, fenceFreeM ms = true → hasTriple (serM ms) = false
  | .nil, _ => rfl
  | .cons k v tl, h => by
      have hk : hasTriple k = false ∧ fenceFreeV v = true ∧ fenceFreeM tl = true := by
        simpa [fenceFreeM, and_assoc] using h
      rw [serM]
      cases tl with
      | nil =>
        simp only [serMSep, List.append_nil]
        exact ntInnerM k v hk.1 hk.2.1
      | cons k2 v2 tl' =>
        exact hasTriple_append_false (ntInnerM k v hk.1 hk.2.1) (ntMSep _ hk.2.2)
          (fun c t ht => by rw [serMSep] at ht; simp at ht; rw [← ht.1]; decide)
  termination_by ms _ => 2 * sizeOf ms

theorem ntMSep : ∀ ms : JMems, fenceFreeM ms = true → hasTriple (serMSep ms) = false
  | .nil, _ => rfl
  | .cons k v tl, h => by
      have hk : hasTriple k = false ∧ fenceFreeV v = true ∧ fenceFreeM tl = true := by
        simpa [fenceFreeM, and_assoc] using h
      have hin : hasTriple ((',' :: dquote :: k) ++ (dquote :: ':' :: serV v)) = false :=
        hasTriple_cons_false (by decide) (ntInnerM k v hk.1 hk.2.1)
      rw [serMSep]
      cases tl with
      | nil =>
        simp only [serMSep, List.append_nil]
        exact hin
      | cons k2 v2 tl' =>
        exact hasTriple_append_false hin (ntMSep _ hk.2.2)
          (fun c t ht => by rw [serMSep] at ht; simp at ht; rw [← ht.1]; decide)
  termination_by ms _ => 2 * sizeOf ms + 1
end

theorem stripFencesAux_nil (fuel : ℕ) : stripFencesAux fuel [] = [] := by
  cases fuel with
  | zero => rfl
  | succ f =>
    rw [stripFencesAux]
    rw [if_neg (by decide), if_neg (by decide)]

theorem stripFencesAux_tail (fuel : ℕ) (h : 1 ≤ fuel) :
    stripFencesAux fuel ('\n' :: fence3) = [] := by
  obtain ⟨f, rfl⟩ : ∃ f, fuel = f + 1 := ⟨fuel - 1, by omega⟩
  rw [stripFencesAux, if_neg (by decide), if_pos (by decide)]
  rw [show ((('\n' :: fence3).dropWhile isWsChar).drop 3) = ([] : List Char) from by decide]
  exact stripFencesAux_nil f

theorem dropWhile_ne_nil_of_mem {p : Char → Bool} {l : List Char} {x : Char}
    (hx : x ∈ l) (hpx : p x = false) : l.dropWhile p ≠ [] := by
  induction l with
  | nil => exact absurd hx (List.not_mem_nil x)
  | cons c cs ih =>
    rw [List.dropWhile_cons]
    split
    · rename_i hpc
      rcases List.mem_cons.mp hx with h | h
      · rw [h] at hpx; rw [hpx] at hpc; exact absurd hpc (by simp)
      · exact ih h
    · simp

/-- Scanning `s ++ "\n```"` with the fence-stripping automaton copies all of
`s` and drops the trailing newline-fence, provided `s` itself contains no
fence marker and ends with a closing brace (in particular `s` never becomes
a pure whitespace run reaching into the trailing fence). -/
theorem stripFencesAux_keep : ∀ (s : List Char) (fuel : ℕ), s.length + 2 ≤ fuel →
    hasTriple s = false → s.getLast? = some rbrace →
    stripFencesAux fuel (s ++ '\n' :: fence3) = s := by
  intro s
  induction s with
  | nil => intro fuel _ _ hl; exact absurd hl (by simp)
  | cons c s' ih =>
    intro fuel hf hs hl
    obtain ⟨f, rfl⟩ : ∃ f, fuel = f + 1 := ⟨fuel - 1, by omega⟩
    have hfj : fenceJson = fence3 ++ ['j', 's', 'o', 'n'] := by decide
    have hmem : rbrace ∈ c :: s' := by
      obtain ⟨ys, hys⟩ := List.getLast?_eq_some_iff.mp hl
      rw [hys]
      exact List.mem_append.mpr (Or.inr (List.mem_singleton.mpr rfl))
    have hA1 : listStartsWith fenceJson ((c :: s') ++ '\n' :: fence3) = false := by
      rcases hT : listStartsWith fenceJson ((c :: s') ++ '\n' :: fence3) with _ | _
      · rfl
      · exfalso
        have h3 : listStartsWith fence3 ((c :: s') ++ '\n' :: fence3) = true := by
          apply listStartsWith_of_append fence3 ['j', 's', 'o', 'n']
          rw [← hfj]; exact hT
        rw [startsWith_fence3_append_false (c :: s') ('\n' :: fence3) hs
          (fun x t hxt => by rw [List.cons.injEq] at hxt; rw [← hxt.1]; decide)] at h3
        exact Bool.false_ne_true h3
    have hd2 : ((c :: s') ++ '\n' :: fence3).dropWhile isWsChar
        = ((c :: s').dropWhile isWsChar) ++ '\n' :: fence3 := by
      rw [List.dropWhile_append]
      rw [if_neg (by simpa using dropWhile_ne_nil_of_mem hmem (by decide))]
    have hA2 : listStartsWith fence3 (((c :: s') ++ '\n' :: fence3).dropWhile isWsChar)
        = false := by
      rw [hd2]
      exact startsWith_fence3_append_false _ _
        (hasTriple_dropWhile isWsChar _ hs)
        (fun x t hxt => by rw [List.cons.injEq] at hxt; rw [← hxt.1]; decide)
    rw [List.cons_append, stripFencesAux]
    rw [List.cons_append] at hA1 hA2
    rw [if_neg (by simp [hA1]), if_neg (by simp [hA2])]
    cases hs' : s' with
    | nil =>
      have hc : c = rbrace := by
        rw [hs'] at hl
        simpa using hl
      subst hs'
      rw [List.nil_append]
      rw [stripFencesAux_tail f (by omega), hc]
    | cons d s'' =>
      rw [← hs']
      have htl : s'.getLast? = some rbrace := by
        rw [hs']
        rw [hs'] at hl
        simpa using hl
      rw [ih f (by simp at hf ⊢; omega) (hasTriple_tail hs) htl]

/-- Stripping the Markdown fence of a wrapped JSON object returns exactly
the object text. -/
theorem stripFences_fenceWrap (s : List Char) (h3 : hasTriple s = false)
    (hh : ∃ t, s = lbrace :: t) (hl : s.getLast? = some rbrace) :
    stripFences (fenceWrap s) = s := by
  obtain ⟨t, rfl⟩ := hh
  have hlen : (fenceWrap (lbrace :: t)).length = t.length + 13 := by
    simp [fenceWrap, fenceJson, fence3]
  rw [stripFences, hlen]
  obtain ⟨f, hf⟩ : ∃ f, t.length + 13 = f + 1 := ⟨t.length + 12, by omega⟩
  rw [hf, fenceWrap, stripFencesAux.eq_def]
  simp only []
  rw [List.append_assoc]
  rw [if_pos (listStartsWith_append_self fenceJson _)]
  have hdrop : (fenceJson ++ (('\n' :: lbrace :: t) ++ '\n' :: fence3)).drop 7
      = ('\n' :: lbrace :: t) ++ '\n' :: fence3 := by
    have h7 : fenceJson.length = 7 := by decide
    rw [← h7, List.drop_left]
  rw [hdrop]
  have hdw : (('\n' :: lbrace :: t) ++ '\n' :: fence3).dropWhile isWsChar
      = (lbrace :: t) ++ '\n' :: fence3 := by
    simp only [List.cons_append, List.dropWhile_cons]
    rw [if_pos (by decide), if_neg (by decide)]
  rw [hdw]
  exact stripFencesAux_keep (lbrace :: t) f (by simp at hf ⊢; omega) h3 hl

theorem stripFencesAux_sublist : ∀ (fuel : ℕ) (cs : List Char),
    List.Sublist (stripFencesAux fuel cs) cs := by
  intro fuel
  induction fuel with
  | zero => intro cs; exact List.Sublist.refl cs
  | succ f ih =>
    intro cs
    rw [stripFencesAux.eq_def]
    simp only []
    split
    · exact ((ih _).trans (List.dropWhile_sublist _)).trans (List.drop_sublist 7 cs)
    · split
      · exact ((ih _).trans (List.drop_sublist 3 _)).trans (List.dropWhile_sublist _)
      · match cs with
        | [] => exact List.Sublist.refl []
        | c :: cs' => exact List.Sublist.cons₂ c (ih cs')

theorem stripFences_sublist (cs : List Char) : List.Sublist (stripFences cs) cs :=
  stripFencesAux_sublist cs.length cs

theorem hasBracePair_iff_sublist (cs : List Char) :
    hasBracePair cs = true ↔ List.Sublist [lbrace, rbrace] cs := by
  induction cs with
  | nil => simp [hasBracePair]
  | cons c cs ih =>
    rw [hasBracePair]
    by_cases hc : c = lbrace
    · subst hc
      rw [if_pos rfl]
      constructor
      · intro h
        have hm : rbrace ∈ cs := by simpa using h
        exact List.Sublist.cons₂ lbrace (List.singleton_sublist.mpr hm)
      · intro h
        have hm : rbrace ∈ cs := by
          cases h with
          | cons _ h' => exact h'.mem (by simp)
          | cons₂ _ h' => exact h'.mem (by simp)
        simpa using hm
    · rw [if_neg hc, ih]
      constructor
      · intro h
        exact h.cons c
      · intro h
        cases h with
        | cons _ h' => exact h'
        | cons₂ _ h' => exact absurd rfl hc

theorem two_pos_sublist (cs : List Char) (i j : ℕ) (hij : i < j) (hj : j < cs.length)
    (hi : cs.get ⟨i, by omega⟩ = lbrace) (hjv : cs.get ⟨j, hj⟩ = rbrace) :
    List.Sublist [lbrace, rbrace] cs := by
  have h1 : List.Sublist [lbrace] (cs.take j) := by
    apply List.singleton_sublist.mpr
    have hi' : i < (cs.take j).length := by
      rw [List.length_take]
      omega
    have hgt : (cs.take j).get ⟨i, hi'⟩ = cs.get ⟨i, by omega⟩ := by
      simp [List.get_take]
    rw [← hi, ← hgt]
    exact List.get_mem _ _ hi'
  have h2 : List.Sublist [rbrace] (cs.get ⟨j, hj⟩ :: cs.drop (j + 1)) := by
    rw [hjv]
    exact List.Sublist.cons₂ rbrace (List.nil_sublist _)
  have hsplit : cs = cs.take j ++ (cs.get ⟨j, hj⟩ :: cs.drop (j + 1)) := by
    conv_lhs => rw [← List.take_append_drop j cs]
    congr 1
    rw [List.drop_eq_getElem_cons hj]
    simp
  rw [hsplit]
  exact List.Sublist.append h1 h2

theorem extract_some_pair (cs : List Char) (s : List Char)
    (h : extractBraceSpan cs = some s) : hasBracePair cs = true := by
  rw [extractBraceSpan] at h
  rcases hfi : firstBraceIdx cs with _ | i <;> rw [hfi] at h
  · simp at h
  · rcases hla : lastBraceIdx cs with _ | j <;> rw [hla] at h
    · simp at h
    · by_cases hij : i < j
      · obtain ⟨hilt, hip, -⟩ := List.findIdx?_eq_some_iff_getElem.mp hfi
        rw [lastBraceIdx] at hla
        rcases hrk : cs.reverse.findIdx? (fun c => c = rbrace) with _ | k <;> rw [hrk] at hla
        · simp at hla
        · obtain ⟨hklt, hkp, -⟩ := List.findIdx?_eq_some_iff_getElem.mp hrk
          have hj' : j = cs.length - 1 - k := by simpa using hla.symm
          have hklen : k < cs.length := by simpa using hklt
          have hjlt : j < cs.length := by omega
          have hjv : cs.get ⟨j, hjlt⟩ = rbrace := by
            have hval : cs.reverse[k] = rbrace := of_decide_eq_true hkp
            rw [List.getElem_reverse] at hval
            simp only [List.get_eq_getElem]
            subst hj'
            exact hval
          have hiv : cs.get ⟨i, hilt⟩ = lbrace := by
            simp only [List.get_eq_getElem]
            exact of_decide_eq_true hip
          rw [hasBracePair_iff_sublist]
          exact two_pos_sublist cs i j hij hjlt hiv hjv
      · exfalso
        simp [hij] at h

/-- No opening brace followed by a closing brace anywhere in the input means
`clean_and_parse_json` returns `None`: fence-stripping only deletes
characters, so it cannot create a brace pair either. -/
theorem cleanParse_no_pair (cs : List Char) (h : hasBracePair cs = false) :
    clean_and_parse_json cs = none := by
  rcases hx : extractBraceSpan (stripFences cs) with _ | s
  · rw [clean_and_parse_json, hx]
  · exfalso
    have h1 : hasBracePair (stripFences cs) = true := extract_some_pair _ _ hx
    have h2 : List.Sublist [lbrace, rbrace] cs :=
      ((hasBracePair_iff_sublist _).mp h1).trans (stripFences_sublist cs)
    rw [((hasBracePair_iff_sublist cs).mpr h2)] at h
    exact Bool.noConfusion h

/-- C9: The JSON extractor's round-trip law, restricted to objects whose
strings are free of code-fence markers, plus the null-on-no-brace-pair law
and the first-brace-to-last-brace span characterization.  (The unrestricted
round-trip of the original claim fails: see the counterexample.) -/
theorem C9_json_extraction :
    (∀ ms : JMems, wfM ms = true → fenceFreeM ms = true →
      clean_and_parse_json (fenceWrap (serV (.obj ms))) = some (.obj ms)) ∧
    (∀ cs : List Char, hasBracePair cs = false → clean_and_parse_json cs = none) ∧
    (∀ cs s : List Char, extractBraceSpan cs = some s →
      ∃ i j, i < j ∧ firstBraceIdx cs = some i ∧ lastBraceIdx cs = some j ∧
        s = (cs.drop i).take (j + 1 - i)) := by
  refine ⟨?_, ?_, ?_⟩
  · intro ms hwf hff
    have hser : serV (.obj ms) = lbrace :: (serM ms ++ [rbrace]) := by
      simp [serV]
    have h3 : hasTriple (serV (.obj ms)) = false :=
      ntV (.obj ms) (by simpa [fenceFreeV] using hff)
    have hl : (serV (.obj ms)).getLast? = some rbrace := by
      rw [hser, ← List.cons_append]
      exact List.getLast?_concat _
    have hstrip : stripFences (fenceWrap (serV (.obj ms))) = serV (.obj ms) :=
      stripFences_fenceWrap _ h3 ⟨serM ms ++ [rbrace], hser⟩ hl
    have hext : extractBraceSpan (serV (.obj ms)) = some (serV (.obj ms)) := by
      rw [hser]
      exact extract_wrap (serM ms)
    rw [clean_and_parse_json, hstrip, hext]
    exact jsonLoads_ser ms hwf
  · intro cs h
    exact cleanParse_no_pair cs h
  · intro cs s h
    rw [extractBraceSpan] at h
    rcases hfi : firstBraceIdx cs with _ | i <;> rw [hfi] at h
    · simp at h
    · rcases hla : lastBraceIdx cs with _ | j <;> rw [hla] at h
      · simp at h
      · by_cases hij : i < j
        · refine ⟨i, j, hij, rfl, rfl, ?_⟩
          simp only [hij, if_true, Option.some.injEq] at h
          exact h.symm
        · exfalso
          simp [hij] at h

/-- C9 counterexample: the spec's unrestricted round-trip fails.  The regex
strips every triple-backtick, including inside JSON string values, so the
fence-wrapped serialization of the object {"a": "x```y"} parses back as
{"a": "xy"}, not as the original object. -/
theorem C9_counterexample :
    clean_and_parse_json
        (fenceWrap (serV (.obj (.cons ['a'] (.str ['x', btick, btick, btick, 'y']) .nil))))
      = some (.obj (.cons ['a'] (.str ['x', 'y']) .nil)) ∧
    JVal.obj (.cons ['a'] (.str ['x', btick, btick, btick, 'y']) .nil)
      ≠ JVal.obj (.cons ['a'] (.str ['x', 'y']) .nil) := by
  decide

theorem C9_witness :
    clean_and_parse_json (fenceWrap (serV (.obj (.cons ['o', 'k'] (.int 7) .nil))))
      = some (.obj (.cons ['o', 'k'] (.int 7) .nil)) :=
  C9_json_extraction.1 (.cons ['o', 'k'] (.int 7) .nil) (by decide) (by decide)

end Ghoul
